import Mathlib

/-!
Verification of the `password-display` QR-code generator.

This file gives a shallow embedding, in Lean, of the Rust sources
`src/qr_code.rs` and `src/lib.rs`, and proves (or refutes) the claims of
the specification against it.

Conventions of the embedding:
* Rust machine integers (`u8`, `u16`, `u32`, `usize`) are modelled as `Nat`.
  Where the Rust code can wrap (shifts on `u16`/`u32`), the embedding takes
  the result `% 2^16` resp. `% 2^32` explicitly; where a value is provably
  below the width no reduction is inserted.
* Rust `Vec<u8>` / fixed arrays become `List Nat`; in-place element writes
  become `List.set`.
* Rust `while` loops that are not structurally recursive are modelled with an
  explicit fuel parameter that is large enough for every reachable input
  (sufficiency is proved where a claim needs it).
-/

namespace PasswordDisplay

/-- Value of a digit string in a given base, most-significant digit first
(`toNum 256 B` is the big-endian integer `Σ Bᵢ·256^(n-1-i)` of the spec). -/
def toNum (base : Nat) (l : List Nat) : Nat :=
  l.foldl (fun a b => a * base + b) 0

theorem toNum_foldl (base : Nat) (a : Nat) (l : List Nat) :
    l.foldl (fun a b => a * base + b) a = a * base ^ l.length + toNum base l := by
  induction l generalizing a with
  | nil => simp [toNum]
  | cons x l ih =>
    simp only [List.foldl_cons, List.length_cons]
    rw [ih (a * base + x)]
    have hx : toNum base (x :: l) = x * base ^ l.length + toNum base l := by
      simp only [toNum, List.foldl_cons, Nat.zero_mul, Nat.zero_add]
      exact ih x
    rw [hx]
    ring

theorem toNum_cons (base x : Nat) (l : List Nat) :
    toNum base (x :: l) = x * base ^ l.length + toNum base l := by
  simp only [toNum, List.foldl_cons]
  simpa using toNum_foldl base x l

theorem toNum_append (base : Nat) (l1 l2 : List Nat) :
    toNum base (l1 ++ l2) = toNum base l1 * base ^ l2.length + toNum base l2 := by
  simp only [toNum, List.foldl_append]
  exact toNum_foldl base (toNum base l1) l2

theorem toNum_nil (base : Nat) : toNum base [] = 0 := rfl

theorem toNum_singleton (base x : Nat) : toNum base [x] = x := by
  simp [toNum]

theorem toNum_replicate_zero (base k : Nat) (l : List Nat) :
    toNum base (List.replicate k 0 ++ l) = toNum base l := by
  rw [toNum_append]
  have : toNum base (List.replicate k 0) = 0 := by
    induction k with
    | zero => simp [toNum]
    | succ k ih => rw [List.replicate_succ, toNum_cons, ih]; simp
  simp [this]

/-- One step of the byte-by-byte long division of `qr_code.rs::divmod`:
`temp` is shifted left by 8 (a `u16`, hence `% 65536`), the next byte is
added, the quotient byte is emitted unless it is a leading zero. -/
def divmodStep (base : Nat) (s : List Nat × Nat) (byte : Nat) : List Nat × Nat :=
  let t1 := (s.2 * 256) % 65536
  let t2 := (t1 + byte) % 65536
  let q := t2 / base
  let r := t2 % base
  if q = 0 ∧ s.1 = [] then (s.1, r) else (s.1 ++ [q], r)

/-- `qr_code.rs::divmod`: divide an arbitrary-length big-endian number by
`base`, returning quotient digits (leading zeros suppressed) and remainder. -/
def divmod (number : List Nat) (base : Nat) : List Nat × Nat :=
  number.foldl (divmodStep base) ([], 0)

/-- When `temp < base < 256` and `byte < 256`, the `u16` in `divmodStep`
does not wrap. -/
theorem divmodStep_eq (base : Nat) (res : List Nat) (temp byte : Nat)
    (hb2 : base < 256) (htemp : temp < base) (hbyte : byte < 256) :
    divmodStep base (res, temp) byte =
      if (temp * 256 + byte) / base = 0 ∧ res = []
      then (res, (temp * 256 + byte) % base)
      else (res ++ [(temp * 256 + byte) / base], (temp * 256 + byte) % base) := by
  have hlt : temp * 256 + byte < 65536 := by
    have : temp * 256 ≤ 254 * 256 := Nat.mul_le_mul_right 256 (by omega)
    omega
  have h1 : (temp * 256) % 65536 = temp * 256 := Nat.mod_eq_of_lt (by omega)
  simp only [divmodStep, h1, Nat.mod_eq_of_lt hlt]

/-- Invariant of the `divmod` fold: for a valid base and byte range, the
state `(res, temp)` evolves so that `toNum res * base + temp` tracks the
value of the processed prefix; the quotient has byte entries, no leading
zero, and bounded length. -/
theorem divmod_fold_invariant (base : Nat) (hb1 : 1 < base) (hb2 : base < 256)
    (l : List Nat) :
    ∀ (res : List Nat) (temp : Nat),
      (∀ x ∈ l, x < 256) → temp < base →
      (res = [] ∨ 0 < toNum 256 res) → (∀ x ∈ res, x < 256) →
      toNum 256 (l.foldl (divmodStep base) (res, temp)).1 * base +
          (l.foldl (divmodStep base) (res, temp)).2 =
        (toNum 256 res * base + temp) * 256 ^ l.length + toNum 256 l ∧
      (l.foldl (divmodStep base) (res, temp)).2 < base ∧
      ((l.foldl (divmodStep base) (res, temp)).1 = [] ∨
          0 < toNum 256 (l.foldl (divmodStep base) (res, temp)).1) ∧
      (∀ x ∈ (l.foldl (divmodStep base) (res, temp)).1, x < 256) ∧
      (l.foldl (divmodStep base) (res, temp)).1.length ≤ res.length + l.length := by
  induction l with
  | nil =>
    intro res temp _ htemp hres hresb
    refine ⟨by simp [toNum], htemp, hres, hresb, by simp⟩
  | cons byte l ih =>
    intro res temp hl htemp hres hresb
    have hbyte : byte < 256 := hl byte (by simp)
    have hl' : ∀ x ∈ l, x < 256 := fun x hx => hl x (by simp [hx])
    rw [List.foldl_cons, divmodStep_eq base res temp byte hb2 htemp hbyte]
    set q := (temp * 256 + byte) / base with hqdef
    set r := (temp * 256 + byte) % base with hrdef
    have hqr : base * q + r = temp * 256 + byte := Nat.div_add_mod _ _
    have hrlt : r < base := Nat.mod_lt _ (by omega)
    have hq256 : q < 256 := by
      have h1 : temp * 256 + byte < base * 256 := by
        have : (temp + 1) * 256 ≤ base * 256 := Nat.mul_le_mul_right 256 htemp
        omega
      exact Nat.div_lt_of_lt_mul h1
    by_cases hcase : q = 0 ∧ res = []
    · rw [if_pos hcase]
      obtain ⟨hq0, hres0⟩ := hcase
      subst hres0
      obtain ⟨h1, h2, h3, h4, h5⟩ := ih [] r hl' hrlt (Or.inl rfl) (by simp)
      refine ⟨?_, h2, h3, h4, ?_⟩
      · rw [h1]
        rw [hq0, Nat.mul_zero, Nat.zero_add] at hqr
        rw [toNum_cons, toNum_nil]
        simp only [List.length_cons]
        rw [hqr]
        ring
      · simp only [List.length_nil, List.length_cons] at h5 ⊢
        omega
    · rw [if_neg hcase]
      have hresq : (res ++ [q] = [] ∨ 0 < toNum 256 (res ++ [q])) := by
        right
        rcases hres with h | h
        · subst h
          have hqpos : 0 < q := by
            rcases Nat.eq_zero_or_pos q with h0 | h0
            · exact absurd ⟨h0, rfl⟩ hcase
            · exact h0
          simpa [toNum] using hqpos
        · rw [toNum_append]
          have hp : 0 < (256 : Nat) ^ ([q] : List Nat).length :=
            Nat.pow_pos (by norm_num)
          have := Nat.mul_pos h hp
          omega
      have hresqb : ∀ x ∈ res ++ [q], x < 256 := by
        intro x hx
        rcases List.mem_append.1 hx with h | h
        · exact hresb x h
        · simp at h; omega
      obtain ⟨h1, h2, h3, h4, h5⟩ := ih (res ++ [q]) r hl' hrlt hresq hresqb
      refine ⟨?_, h2, h3, h4, by
        simp only [List.length_append, List.length_singleton, List.length_cons,
          List.length_nil, Nat.zero_add] at h5 ⊢
        omega⟩
      rw [h1, toNum_append, toNum_singleton, toNum_cons 256 byte l]
      simp only [List.length_singleton, List.length_cons, pow_one]
      have hqr2 : q * base + r = temp * 256 + byte := by
        rw [Nat.mul_comm]; exact hqr
      have key : (toNum 256 res * 256 + q) * base + r =
          (toNum 256 res * base + temp) * 256 + byte := by
        calc (toNum 256 res * 256 + q) * base + r
            = toNum 256 res * 256 * base + (q * base + r) := by ring
          _ = toNum 256 res * 256 * base + (temp * 256 + byte) := by rw [hqr2]
          _ = (toNum 256 res * base + temp) * 256 + byte := by ring
      calc ((toNum 256 res * 256 + q) * base + r) * 256 ^ l.length + toNum 256 l
          = ((toNum 256 res * base + temp) * 256 + byte) * 256 ^ l.length + toNum 256 l := by
            rw [key]
        _ = (toNum 256 res * base + temp) * 256 ^ (l.length + 1) +
              (byte * 256 ^ l.length + toNum 256 l) := by ring

/-- Value/remainder correctness of `divmod`. -/
theorem divmod_spec (l : List Nat) (base : Nat) (hb1 : 1 < base) (hb2 : base < 256)
    (hl : ∀ x ∈ l, x < 256) :
    toNum 256 (divmod l base).1 * base + (divmod l base).2 = toNum 256 l ∧
    (divmod l base).2 < base ∧
    ((divmod l base).1 = [] ∨ 0 < toNum 256 (divmod l base).1) ∧
    (∀ x ∈ (divmod l base).1, x < 256) ∧
    (divmod l base).1.length ≤ l.length := by
  have := divmod_fold_invariant base hb1 hb2 l [] 0 hl (by omega) (Or.inl rfl) (by simp)
  obtain ⟨h1, h2, h3, h4, h5⟩ := this
  refine ⟨?_, h2, h3, h4, by simpa using h5⟩
  simpa [toNum] using h1

/-- The divmod loop of `qr_code.rs::encode_bits`: repeatedly divide by the
base, prepending each remainder to the accumulator.  The Rust loop runs
until the dividend vector is empty; the fuel parameter is an upper bound on
the number of iterations (`encode_bits` passes `2*len+1`, which is proved
sufficient in `encodeGo_eq`). -/
def encodeGo (base : Nat) : Nat → List Nat → List Nat → List Nat
  | 0, _, acc => acc
  | fuel + 1, bits, acc =>
    if bits = [] then acc
    else
      let d := divmod bits base
      encodeGo base fuel d.1 (d.2 :: acc)

/-- Rust `usize::div_ceil`. -/
def divCeil (a b : Nat) : Nat := (a + b - 1) / b

/-- `qr_code.rs::encode_bits`: base-`base` encoding of a byte vector, padded
with leading zeros to the expected length `⌈len·8·2/11⌉`. -/
def encode_bits (bits : List Nat) (base : Nat) : List Nat :=
  let raw := encodeGo base (2 * bits.length + 1) bits []
  let expected := divCeil (bits.length * 8 * 2) 11
  List.replicate (expected - raw.length) 0 ++ raw

/-! ### The divmod loop computes the base-`base` digits of the input value -/

theorem toNum_lt (l : List Nat) (hl : ∀ x ∈ l, x < 256) :
    toNum 256 l < 256 ^ l.length := by
  induction l with
  | nil => simp [toNum]
  | cons x l ih =>
    rw [toNum_cons]
    have hx : x < 256 := hl x (by simp)
    have hih := ih (fun y hy => hl y (by simp [hy]))
    have : x * 256 ^ l.length + toNum 256 l < (x + 1) * 256 ^ l.length := by
      have := hih; ring_nf; omega
    calc x * 256 ^ l.length + toNum 256 l
        < (x + 1) * 256 ^ l.length := this
      _ ≤ 256 * 256 ^ l.length := Nat.mul_le_mul_right _ (by omega)
      _ = 256 ^ (l.length + 1) := by ring
      _ = 256 ^ (x :: l).length := by simp

theorem digits_len_le_of_lt_pow {b v k : Nat} (hb : 1 < b) (hv : v < b ^ k) :
    (Nat.digits b v).length ≤ k := by
  rcases Nat.eq_zero_or_pos v with h0 | h0
  · subst h0; simp
  · rw [Nat.digits_len b v hb (by omega)]
    have := Nat.log_lt_of_lt_pow (by omega : v ≠ 0) hv
    omega

/-- The core loop of `encode_bits` produces exactly the base-`base` digits of
the value of the input (most significant first), except that a nonempty
all-zero input produces the single digit `0`. -/
theorem encodeGo_eq (base : Nat) (hb1 : 1 < base) (hb2 : base < 256) :
    ∀ (fuel : Nat) (bits acc : List Nat), (∀ x ∈ bits, x < 256) →
      (Nat.digits base (toNum 256 bits)).length + 1 ≤ fuel →
      encodeGo base fuel bits acc =
        (if toNum 256 bits = 0 ∧ bits ≠ [] then [0]
         else (Nat.digits base (toNum 256 bits)).reverse) ++ acc := by
  intro fuel
  induction fuel with
  | zero => intro bits acc _ hfuel; omega
  | succ fuel ih =>
    intro bits acc hbits hfuel
    by_cases hnil : bits = []
    · subst hnil
      simp [encodeGo, toNum]
    · rw [encodeGo, if_neg hnil]
      show encodeGo base fuel (divmod bits base).1 ((divmod bits base).2 :: acc) = _
      obtain ⟨h1, h2, h3, h4, h5⟩ := divmod_spec bits base hb1 hb2 hbits
      set q := (divmod bits base).1 with hq
      set r := (divmod bits base).2 with hr
      set v := toNum 256 bits with hv
      rcases Nat.eq_zero_or_pos v with hv0 | hvpos
      · -- value zero: the quotient is empty and the remainder zero
        have hmul0 : toNum 256 q * base = 0 := by omega
        have hq0 : toNum 256 q = 0 := by
          rcases Nat.mul_eq_zero.1 hmul0 with h | h
          · exact h
          · omega
        have hqnil : q = [] := by
          rcases h3 with h | h
          · exact h
          · omega
        have hr0 : r = 0 := by omega
        rw [hqnil, hr0]
        have : encodeGo base fuel [] (0 :: acc) = 0 :: acc := by
          cases fuel <;> simp [encodeGo]
        rw [this, if_pos ⟨hv0, hnil⟩]
        simp
      · -- positive value: one digit is peeled off
        have hsplit : v = r + toNum 256 q * base := by omega
        have hqval : toNum 256 q = v / base := by
          rw [hsplit, Nat.add_mul_div_right _ _ (by omega : 0 < base),
            Nat.div_eq_of_lt h2, Nat.zero_add]
        have hrval : r = v % base := by
          rw [hsplit, Nat.add_mul_mod_self_right, Nat.mod_eq_of_lt h2]
        have hdig : Nat.digits base v = v % base :: Nat.digits base (v / base) :=
          Nat.digits_def' hb1 hvpos
        have hlen : (Nat.digits base (toNum 256 q)).length + 1 ≤ fuel := by
          rw [hqval]
          have : (Nat.digits base v).length = (Nat.digits base (v / base)).length + 1 := by
            rw [hdig]; simp
          omega
        have hcond : ¬(toNum 256 q = 0 ∧ q ≠ []) := by
          rcases Nat.eq_zero_or_pos (v / base) with hd0 | hdpos
          · have : q = [] := by
              rcases h3 with h | h
              · exact h
              · rw [hqval] at h; omega
            simp [this]
          · intro hco
            rw [hqval] at hco
            omega
        rw [ih q (r :: acc) h4 hlen, if_neg hcond, if_neg (by push_neg; intro h; omega)]
        rw [hqval, hrval, hdig]
        simp

/-- `encode_bits` at base 45 yields the base-45 digits of the input value,
left-padded with zeros, and its length is the maximum of the expected
length and the digit count. -/
theorem encode_bits_eq (B : List Nat) (hB : ∀ x ∈ B, x < 256) :
    encode_bits B 45 =
      List.replicate (divCeil (B.length * 8 * 2) 11 -
          (if toNum 256 B = 0 ∧ B ≠ [] then [0]
           else (Nat.digits 45 (toNum 256 B)).reverse).length) 0 ++
        (if toNum 256 B = 0 ∧ B ≠ [] then [0]
         else (Nat.digits 45 (toNum 256 B)).reverse) := by
  have hpow : (256 : Nat) ^ B.length ≤ 45 ^ (2 * B.length) := by
    calc (256 : Nat) ^ B.length ≤ 2025 ^ B.length :=
          Nat.pow_le_pow_left (by norm_num) _
      _ = (45 ^ 2) ^ B.length := by norm_num
      _ = 45 ^ (2 * B.length) := by rw [← Nat.pow_mul]
  have hlt : toNum 256 B < 45 ^ (2 * B.length) :=
    Nat.lt_of_lt_of_le (toNum_lt B hB) hpow
  have hfuel : (Nat.digits 45 (toNum 256 B)).length + 1 ≤ 2 * B.length + 1 := by
    have := digits_len_le_of_lt_pow (by norm_num : (1:Nat) < 45) hlt
    omega
  unfold encode_bits
  rw [encodeGo_eq 45 (by norm_num) (by norm_num) _ B [] hB hfuel]
  simp

theorem encode_bits_length (B : List Nat) (hB : ∀ x ∈ B, x < 256) :
    (encode_bits B 45).length =
      max (divCeil (B.length * 8 * 2) 11)
        (if toNum 256 B = 0 ∧ B ≠ [] then 1
         else (Nat.digits 45 (toNum 256 B)).length) := by
  rw [encode_bits_eq B hB]
  rw [List.length_append, List.length_replicate]
  split <;> simp <;> omega

theorem toNum_reverse_ofDigits (b : Nat) (l : List Nat) :
    toNum b l.reverse = Nat.ofDigits b l := by
  induction l with
  | nil => simp [toNum, Nat.ofDigits]
  | cons x l ih =>
    rw [List.reverse_cons, toNum_append, toNum_singleton, ih, Nat.ofDigits_cons]
    simp
    ring

theorem encode_bits_le_47 (B : List Nat) (h : B.length ≤ 32)
    (hB : ∀ x ∈ B, x < 256) : (encode_bits B 45).length ≤ 47 := by
  rw [encode_bits_length B hB]
  have hexp : divCeil (B.length * 8 * 2) 11 ≤ 47 := by unfold divCeil; omega
  have hdig : (Nat.digits 45 (toNum 256 B)).length ≤ 47 := by
    apply digits_len_le_of_lt_pow (by norm_num)
    calc toNum 256 B < 256 ^ B.length := toNum_lt B hB
      _ ≤ 256 ^ 32 := Nat.pow_le_pow_right (by norm_num) h
      _ < 45 ^ 47 := by decide
  split <;> omega

/-- C1, counterexample: for the 11-byte input of all `0xFF` bytes the
base-45 encoding has 17 digits, not `⌈(11·8·2)/11⌉ = 16`: the value
`256^11 - 1` does not fit in 16 base-45 digits, and `encode_bits` never
truncates. -/
theorem C1_counterexample :
    (encode_bits (List.replicate 11 255) 45).length ≠ divCeil (11 * 8 * 2) 11 := by
  decide

/-- C1 (amended): for every input byte vector `B` with `1 ≤ |B| ≤ 32`, the
length of `encode_bits B 45` is the *maximum* of `⌈(|B|·8·2)/11⌉` and the
number of base-45 digits of the value of `B`; the code pads short results
to the expected length but keeps longer ones unchanged. -/
theorem C1_amended (B : List Nat) (h1 : 1 ≤ B.length) (h2 : B.length ≤ 32)
    (hB : ∀ x ∈ B, x < 256) :
    (encode_bits B 45).length =
      max (divCeil (B.length * 8 * 2) 11) ((Nat.digits 45 (toNum 256 B)).length) := by
  rw [encode_bits_length B hB]
  by_cases hv : toNum 256 B = 0 ∧ B ≠ []
  · rw [if_pos hv, hv.1]
    have hexp : 1 ≤ divCeil (B.length * 8 * 2) 11 := by unfold divCeil; omega
    simp
    omega
  · rw [if_neg hv]

theorem C1_amended_witness :
    (encode_bits [255] 45).length =
      max (divCeil (([255] : List Nat).length * 8 * 2) 11)
        ((Nat.digits 45 (toNum 256 [255])).length) :=
  C1_amended [255] (by decide) (by decide) (by decide)

/-- C8: base-45/base-256 round trip.  For every input byte vector `B` with
`1 ≤ |B| ≤ 32`, interpreting the output of `encode_bits B 45` as the
base-45 integer `Σ Sᵢ·45^(L-1-i)` recovers exactly the big-endian value
`Σ Bᵢ·256^(n-1-i)` of `B` (hence re-expressing it in base 256 with
left-padding to `|B|` recovers `B`). -/
theorem C8_roundtrip (B : List Nat) (h1 : 1 ≤ B.length) (h2 : B.length ≤ 32)
    (hB : ∀ x ∈ B, x < 256) :
    toNum 45 (encode_bits B 45) = toNum 256 B := by
  rw [encode_bits_eq B hB, toNum_replicate_zero]
  by_cases hv : toNum 256 B = 0 ∧ B ≠ []
  · rw [if_pos hv, hv.1]
    simp [toNum]
  · rw [if_neg hv, toNum_reverse_ofDigits, Nat.ofDigits_digits]

theorem C8_roundtrip_witness :
    toNum 45 (encode_bits [255] 45) = toNum 256 [255] :=
  C8_roundtrip [255] (by decide) (by decide) (by decide)

/-! ### The data framer `qr_code.rs::encapsulate_data`

The 272-entry bit array is a `List Nat`; the state also records the Rust
write index and a flag `ok` that stays `true` exactly as long as every
write `data[index] = …` used an index `< 272` (i.e. the Rust code did not
panic with an out-of-bounds write). -/

structure FrameSt where
  data : List Nat
  ok : Bool
  index : Nat
  deriving DecidableEq

/-- `data[i] = v`, recording whether the write was in bounds. -/
def stWrite (s : FrameSt) (i v : Nat) : FrameSt :=
  { s with data := s.data.set i v, ok := s.ok && decide (i < 272) }

/-- The common shape of the bit-group writers in `encapsulate_data`: check
the top bit of the running register against `mask`, write `1` or `0` at the
current index, shift the register left (wrapping at `width`), advance. -/
def writeBitsLoop (mask width : Nat) : Nat → FrameSt × Nat → FrameSt × Nat
  | 0, st => st
  | n + 1, st =>
    writeBitsLoop mask width n
      ({ stWrite st.1 st.1.index (if st.2 &&& mask = mask then 1 else 0) with
          index := st.1.index + 1 },
        (st.2 * 2) % width)

/-- An 11-bit character-pair group (`temp & 1024`, `u16` shifts). -/
def write11 (s : FrameSt) (temp : Nat) : FrameSt :=
  (writeBitsLoop 1024 65536 11 (s, temp)).1

/-- A 6-bit single-character group (`encoded_bits[0] & 32`, `u8` shifts). -/
def write6 (s : FrameSt) (c : Nat) : FrameSt :=
  (writeBitsLoop 32 256 6 (s, c)).1

/-- An 8-bit pad-byte group with advancing index (the `236` loop). -/
def write8adv (s : FrameSt) (b : Nat) : FrameSt :=
  (writeBitsLoop 128 256 8 (s, b)).1

/-- The second pad-byte loop of `encapsulate_data` (the `17` loop) writes
its 8 bits but — unlike the first — never increments `index`; this mirrors
the Rust source, whose second loop body lacks the `index += 1`. -/
def write8noadv : Nat → FrameSt × Nat → FrameSt × Nat
  | 0, st => st
  | n + 1, st =>
    write8noadv n
      (stWrite st.1 st.1.index (if st.2 &&& 128 = 128 then 1 else 0), (st.2 * 2) % 256)

/-- The character-pair loop: drain two symbols at a time, emit 11 bits. -/
def pairLoop : List Nat → FrameSt → FrameSt × List Nat
  | a :: b :: rest, s => pairLoop rest (write11 s (a * 45 + b))
  | l, s => (s, l)

/-- Terminator: up to four zero bits, clipped at the end of the buffer (no
writes are needed, the buffer already holds zeros). -/
def termLoop (s : FrameSt) : FrameSt :=
  (List.range 4).foldl
    (fun st _ => if st.index = 272 then st else { st with index := st.index + 1 }) s

/-- Byte alignment: `while index % 8 != 0 { index += 1 }` (fuel 8 ≥ 7). -/
def alignLoop : Nat → FrameSt → FrameSt
  | 0, s => s
  | f + 1, s => if s.index % 8 = 0 then s else alignLoop f { s with index := s.index + 1 }

/-- The pad-byte loop: write `236`, then (without advancing, see
`write8noadv`) `17`, until the write index reaches 272 (fuel 34 ≥ 272/8). -/
def padLoop : Nat → FrameSt → FrameSt
  | 0, s => s
  | f + 1, s =>
    if s.index = 272 then s
    else
      let s1 := write8adv s 236
      if s1.index = 272 then s1
      else padLoop f (write8noadv 8 (s1, 17)).1

structure FrameOut where
  data : List Nat
  ok : Bool
  payEnd : Nat
  deriving DecidableEq

/-- The header part of `encapsulate_data`: the mode indicator `0010`
(a single `1` at bit 2) and the 9-bit character count (LSB written at
`data[12]` first), followed by setting `index = 4 + 9`. -/
def headerSt (encoded_bits : List Nat) : FrameSt :=
  let s0 : FrameSt := { data := List.replicate 272 0, ok := true, index := 0 }
  let s1 := stWrite s0 2 1
  let c0 := encoded_bits.length % 256
  let s2 := ((List.range 9).foldl
    (fun (st : FrameSt × Nat) n => (stWrite st.1 (3 + 9 - n) (st.2 &&& 1), st.2 >>> 1))
    (s1, c0)).1
  { s2 with index := 4 + 9 }

/-- The payload part of `encapsulate_data`: pairs of characters as 11-bit
groups, then a trailing single character (if any) as a 6-bit group. -/
def payloadSt (encoded_bits : List Nat) : FrameSt :=
  match pairLoop encoded_bits (headerSt encoded_bits) with
  | (s, [x]) => write6 s x
  | (s, _) => s

/-- `qr_code.rs::encapsulate_data`: mode indicator, 9-bit character count,
11-bit and 6-bit payload groups, terminator, byte alignment, pad bytes.
Besides the 272-entry bit buffer the embedding returns the in-bounds flag
and the value of `index` right after the payload was written. -/
def encapsulate_data (encoded_bits : List Nat) : FrameOut :=
  let s8 := padLoop 34 (alignLoop 8 (termLoop (payloadSt encoded_bits)))
  { data := s8.data, ok := s8.ok, payEnd := (payloadSt encoded_bits).index }

@[simp] theorem stWrite_index (s : FrameSt) (i v : Nat) :
    (stWrite s i v).index = s.index := rfl

@[simp] theorem stWrite_ok (s : FrameSt) (i v : Nat) :
    (stWrite s i v).ok = (s.ok && decide (i < 272)) := rfl

theorem writeBitsLoop_spec (mask width : Nat) :
    ∀ (n : Nat) (s : FrameSt) (t : Nat),
      (writeBitsLoop mask width n (s, t)).1.index = s.index + n ∧
      (s.ok = true → s.index + n ≤ 272 → (writeBitsLoop mask width n (s, t)).1.ok = true) := by
  intro n
  induction n with
  | zero =>
    intro s t
    exact ⟨by simp [writeBitsLoop], fun h _ => by simpa [writeBitsLoop] using h⟩
  | succ n ih =>
    intro s t
    rw [writeBitsLoop]
    have := ih { stWrite s s.index (if t &&& mask = mask then 1 else 0) with
        index := s.index + 1 } ((t * 2) % width)
    simp only [stWrite_index] at this ⊢
    refine ⟨by rw [this.1]; omega, ?_⟩
    intro hok hle
    refine this.2 ?_ (by omega)
    simp [stWrite, hok]
    omega

theorem write8noadv_spec :
    ∀ (n : Nat) (s : FrameSt) (t : Nat),
      (write8noadv n (s, t)).1.index = s.index ∧
      (s.ok = true → s.index < 272 → (write8noadv n (s, t)).1.ok = true) := by
  intro n
  induction n with
  | zero =>
    intro s t
    exact ⟨by simp [write8noadv], fun h _ => by simpa [write8noadv] using h⟩
  | succ n ih =>
    intro s t
    rw [write8noadv]
    have := ih (stWrite s s.index (if t &&& 128 = 128 then 1 else 0)) ((t * 2) % 256)
    simp only [stWrite_index] at this ⊢
    refine ⟨this.1, ?_⟩
    intro hok hlt
    refine this.2 ?_ hlt
    simp [stWrite, hok]
    omega

theorem pairLoop_spec :
    ∀ (S : List Nat) (s : FrameSt),
      (pairLoop S s).1.index = s.index + 11 * (S.length / 2) ∧
      (pairLoop S s).2.length = S.length % 2 ∧
      (s.ok = true → s.index + 11 * (S.length / 2) ≤ 272 → (pairLoop S s).1.ok = true)
  | [], s => by
    refine ⟨by simp [pairLoop], by simp [pairLoop], fun h _ => by simpa [pairLoop] using h⟩
  | [a], s => by
    refine ⟨by simp [pairLoop], by simp [pairLoop], fun h _ => by simpa [pairLoop] using h⟩
  | a :: b :: rest, s => by
    rw [pairLoop]
    have hw := writeBitsLoop_spec 1024 65536 11 s (a * 45 + b)
    have ih := pairLoop_spec rest (write11 s (a * 45 + b))
    have hlen : (a :: b :: rest).length = rest.length + 2 := by simp
    have hdiv : (a :: b :: rest).length / 2 = rest.length / 2 + 1 := by omega
    have hmod : (a :: b :: rest).length % 2 = rest.length % 2 := by omega
    have hwidx : (write11 s (a * 45 + b)).index = s.index + 11 := hw.1
    refine ⟨?_, ?_, ?_⟩
    · rw [ih.1, hwidx, hdiv]; ring
    · rw [ih.2.1, hmod]
    · intro hok hle
      rw [hdiv] at hle
      refine ih.2.2 (hw.2 hok (by omega)) ?_
      rw [hwidx, hdiv] at *
      omega

theorem termLoop_spec (s : FrameSt) :
    (termLoop s).ok = s.ok ∧
    (s.index ≤ 272 → (termLoop s).index ≤ 272) ∧
    (s.index = 272 → (termLoop s).index = 272) := by
  unfold termLoop
  rw [show List.range 4 = [0, 1, 2, 3] from rfl]
  simp only [List.foldl_cons, List.foldl_nil]
  refine ⟨by simp [apply_ite FrameSt.ok], ?_, ?_⟩ <;>
    · intro h
      split_ifs <;> simp_all <;> omega

theorem alignLoop_spec :
    ∀ (f : Nat) (s : FrameSt), (8 - s.index % 8) % 8 ≤ f →
      (alignLoop f s).ok = s.ok ∧
      (alignLoop f s).index = s.index + (8 - s.index % 8) % 8 := by
  intro f
  induction f with
  | zero =>
    intro s hf
    have h0 : (8 - s.index % 8) % 8 = 0 := by omega
    have : s.index % 8 = 0 := by omega
    simp [alignLoop, h0]
  | succ f ih =>
    intro s hf
    rw [alignLoop]
    by_cases h : s.index % 8 = 0
    · simp [h]
    · rw [if_neg h]
      have := ih { s with index := s.index + 1 } (by simp; omega)
      simp only at this
      refine ⟨this.1, ?_⟩
      rw [this.2]
      show s.index + 1 + (8 - (s.index + 1) % 8) % 8 = s.index + (8 - s.index % 8) % 8
      omega

theorem padLoop_spec :
    ∀ (f : Nat) (s : FrameSt), s.index % 8 = 0 → s.index ≤ 272 →
      272 ≤ s.index + 8 * f →
      (s.ok = true → (padLoop f s).ok = true) ∧ (padLoop f s).index = 272 := by
  intro f
  induction f with
  | zero =>
    intro s h8 hle hge
    have : s.index = 272 := by omega
    simp [padLoop, this]
  | succ f ih =>
    intro s h8 hle hge
    rw [padLoop]
    by_cases h272 : s.index = 272
    · simp [h272]
    · rw [if_neg h272]
      have hlt : s.index ≤ 264 := by omega
      have hadv := writeBitsLoop_spec 128 256 8 s 236
      have hadvidx : (write8adv s 236).index = s.index + 8 := hadv.1
      by_cases h272b : (write8adv s 236).index = 272
      · rw [if_pos h272b]
        exact ⟨fun hok => hadv.2 hok (by omega), h272b⟩
      · rw [if_neg h272b]
        have hnoadv := write8noadv_spec 8 (write8adv s 236) 17
        have := ih (write8noadv 8 (write8adv s 236, 17)).1
          (by rw [hnoadv.1, hadvidx]; omega)
          (by rw [hnoadv.1, hadvidx]; omega)
          (by rw [hnoadv.1, hadvidx]; omega)
        refine ⟨fun hok => this.1 ?_, this.2⟩
        refine hnoadv.2 (hadv.2 hok (by omega)) ?_
        rw [hadvidx]
        omega

set_option maxRecDepth 4000 in
theorem headerSt_spec (S : List Nat) :
    (headerSt S).ok = true ∧ (headerSt S).index = 13 := by
  unfold headerSt
  rw [show List.range 9 = [0, 1, 2, 3, 4, 5, 6, 7, 8] from rfl]
  simp [stWrite]

theorem payloadSt_spec (S : List Nat) (hS : S.length ≤ 47) :
    (payloadSt S).ok = true ∧
    (payloadSt S).index = 13 + 11 * (S.length / 2) + 6 * (S.length % 2) := by
  obtain ⟨hok, hidx⟩ := headerSt_spec S
  have hp := pairLoop_spec S (headerSt S)
  rcases hpr : pairLoop S (headerSt S) with ⟨s4, leftover⟩
  rw [hpr] at hp
  simp only at hp
  have hpok : s4.ok = true := hp.2.2 hok (by rw [hidx]; omega)
  have hpidx : s4.index = 13 + 11 * (S.length / 2) := by rw [hp.1, hidx]
  unfold payloadSt
  rw [hpr]
  rcases heven : S.length % 2 with _ | m
  · -- even: no leftover character
    have hnil : leftover = [] := by
      have := hp.2.1
      rw [heven] at this
      exact List.length_eq_zero.1 this
    subst hnil
    exact ⟨hpok, by rw [hpidx]; omega⟩
  · -- odd: a single leftover character, written as 6 bits
    have hm : m = 0 := by omega
    subst hm
    have hone : leftover.length = 1 := by rw [hp.2.1, heven]
    obtain ⟨x, hx⟩ := List.length_eq_one.1 hone
    subst hx
    have hw := writeBitsLoop_spec 32 256 6 s4 x
    constructor
    · show (write6 s4 x).ok = true
      refine hw.2 hpok ?_
      rw [hpidx]
      omega
    · show (write6 s4 x).index = _
      unfold write6
      rw [hw.1, hpidx]

theorem encapsulate_spec (S : List Nat) (hS : S.length ≤ 47) :
    (encapsulate_data S).ok = true ∧
    (encapsulate_data S).payEnd = 13 + 11 * (S.length / 2) + 6 * (S.length % 2) := by
  obtain ⟨hok, hidx⟩ := payloadSt_spec S hS
  have hle : (payloadSt S).index ≤ 272 := by rw [hidx]; omega
  obtain ⟨htok, htle, _⟩ := termLoop_spec (payloadSt S)
  have htle' := htle hle
  have hal := alignLoop_spec 8 (termLoop (payloadSt S)) (by omega)
  have halidx : (alignLoop 8 (termLoop (payloadSt S))).index % 8 = 0 := by
    rw [hal.2]; omega
  have halle : (alignLoop 8 (termLoop (payloadSt S))).index ≤ 272 := by
    rw [hal.2]; omega
  have hpad := padLoop_spec 34 (alignLoop 8 (termLoop (payloadSt S)))
    halidx halle (by omega)
  constructor
  · show (padLoop 34 (alignLoop 8 (termLoop (payloadSt S)))).ok = true
    refine hpad.1 ?_
    rw [hal.1, htok, hok]
  · exact hidx

set_option maxRecDepth 100000 in
/-- C3, code evaluated at the failing input: for the two-symbol input
`[0, 0]` the pad region starts at bit 32; pad byte 1 (bits 40-47) holds the
bits of `0xEC = 11101100`, not the `0x11 = 00010001` required for odd pad
positions (the second pad-byte loop in the source never advances `index`,
so each `0x11` byte is immediately overwritten by the next `0xEC`). -/
theorem C3_pad_byte_one_is_EC :
    List.take 8 (List.drop 40 (encapsulate_data [0, 0]).data) = [1, 1, 1, 0, 1, 1, 0, 0] := by
  decide

/-- C10: for every input byte vector of length ≤ 32 the encoder returns at
most 47 symbols; for every symbol sequence of length ≤ 47 every write of
the framing stage is in bounds (the `ok` flag of the instrumented
`encapsulate_data` stays `true`, so the Rust code cannot panic); and at
exactly 47 symbols the header plus payload occupies exactly 272 bits. -/
theorem C10_safety (B S : List Nat) (hB : B.length ≤ 32) (hBv : ∀ x ∈ B, x < 256)
    (hS : S.length ≤ 47) :
    (encode_bits B 45).length ≤ 47 ∧
    (encapsulate_data S).ok = true ∧
    (S.length = 47 → (encapsulate_data S).payEnd = 272) := by
  refine ⟨encode_bits_le_47 B hB hBv, (encapsulate_spec S hS).1, fun h47 => ?_⟩
  rw [(encapsulate_spec S hS).2, h47]

theorem C10_safety_witness :
    (encode_bits (List.replicate 32 255) 45).length ≤ 47 ∧
    (encapsulate_data (List.replicate 47 0)).ok = true ∧
    ((List.replicate 47 (0 : Nat)).length = 47 →
      (encapsulate_data (List.replicate 47 0)).payEnd = 272) :=
  C10_safety (List.replicate 32 255) (List.replicate 47 0)
    (by decide) (by decide) (by decide)

/-! ### GF(256) and the Reed–Solomon encoder `qr_code.rs::apply_ecc` -/

/-- The carryless-multiplication loop of `qr_code.rs::gf_multiply`:
`temp = ((factor_2 & mask) * factor_1) ^ temp` for `mask = 1,2,…,128`. -/
def gfClmul (c s : Nat) : Nat :=
  [1, 2, 4, 8, 16, 32, 64, 128].foldl (fun t m => ((s &&& m) * c) ^^^ t) 0

/-- The reduction ladder of `gf_multiply`: for bits 8…15 (mask 256…32768)
XOR in the reduction constants of `x⁸+x⁴+x³+x²+1`, then mask to 8 bits. -/
def gfReduce (t : Nat) : Nat :=
  ([(256, 29), (512, 58), (1024, 116), (2048, 232),
    (4096, 205), (8192, 135), (16384, 19), (32768, 38)].foldl
    (fun t p => if t &&& p.1 = p.1 then t ^^^ p.2 else t) t) &&& 255

/-- One coefficient of `qr_code.rs::gf_multiply`: the GF(256) product of a
generator coefficient `c` and the scalar `s`. -/
def gfmul (c s : Nat) : Nat := gfReduce (gfClmul c s)

/-- The generator polynomial of `apply_ecc` (version 2, level L). -/
def genPoly : List Nat := [1, 216, 194, 159, 111, 199, 94, 95, 113, 157, 193]

/-- `qr_code.rs::gf_multiply`: the generator polynomial times a scalar. -/
def gf_multiply (gen : List Nat) (factor : Nat) : List Nat :=
  gen.map (fun c => gfmul c factor)

/-- The tail of `genPoly` (coefficients 1…10), used by the shift step. -/
def gTail : List Nat := [216, 194, 159, 111, 199, 94, 95, 113, 157, 193]

/-- One iteration of the division loop of `apply_ecc` without the reload:
`remainder[m] = remainder[m+1] ^ temp[m+1]` for `m = 0…9` where
`temp = gf_multiply(genPoly, remainder[0])`; `remainder[10]` is untouched. -/
def stepNoLoad : List Nat → List Nat
  | [] => []
  | a0 :: rest => (List.zipWith (fun x g => x ^^^ gfmul g a0) rest gTail) ++ [rest.getD 9 0]

/-- One full iteration (`n ≠ 33`): shift, then `remainder[10] = message[n+11]`. -/
def stepLoad (r : List Nat) (l : Nat) : List Nat := (stepNoLoad r).set 10 l

/-- Iterations of the division loop, one per element of `ls`. -/
def loadRun (r : List Nat) (ls : List Nat) : List Nat := ls.foldl stepLoad r

/-- The final register of the division loop of `apply_ecc`: initialised with
`message[0..11]`, 33 load iterations consuming `message[11..44]` (entries
34…43 of the 44-byte array are still zero), one final shift-only iteration.
`register[0..10]` are the ECC bytes. -/
def eccRegister (msg : List Nat) : List Nat :=
  stepNoLoad (loadRun (msg.take 11) ((msg ++ List.replicate 10 0).drop 11))

/-- Packing of 8 bits into a message codeword, as in `apply_ecc`:
`message[n] = data[8n]·128 + … + data[8n+7]`. -/
def packByte (bits : List Nat) (n : Nat) : Nat :=
  bits.getD (8 * n) 0 * 128 + bits.getD (8 * n + 1) 0 * 64 +
  bits.getD (8 * n + 2) 0 * 32 + bits.getD (8 * n + 3) 0 * 16 +
  bits.getD (8 * n + 4) 0 * 8 + bits.getD (8 * n + 5) 0 * 4 +
  bits.getD (8 * n + 6) 0 * 2 + bits.getD (8 * n + 7) 0

/-- The 34 message codewords packed from the 272-bit buffer. -/
def messageBytes (data : List Nat) : List Nat :=
  (List.range 34).map (packByte data)

/-- MSB-first bit expansion of one ECC byte, as in the tail of `apply_ecc`
(`message_ecc[index+k] = 1` iff the corresponding bit of the byte is set). -/
def byteBits (r : Nat) : List Nat :=
  [if r &&& 128 = 128 then 1 else 0, if r &&& 64 = 64 then 1 else 0,
   if r &&& 32 = 32 then 1 else 0, if r &&& 16 = 16 then 1 else 0,
   if r &&& 8 = 8 then 1 else 0, if r &&& 4 = 4 then 1 else 0,
   if r &&& 2 = 2 then 1 else 0, if r &&& 1 = 1 then 1 else 0]

/-- `qr_code.rs::apply_ecc`: the 272 data bits followed by the 80 bits of
the 10 ECC bytes (`remainder[10]` is discarded). -/
def apply_ecc (data : List Nat) : List Nat :=
  data ++ (((eccRegister (messageBytes data)).take 10).map byteBits).join

/-- The 44-byte codeword asserted by the claim: the 352 bits of `apply_ecc`
packed MSB-first into bytes (bytes 0…33 are the message, 34…43 the ECC). -/
def codeword (data : List Nat) : List Nat :=
  (List.range 44).map (packByte (apply_ecc data))

/-- Remainder of the division of a GF(256) polynomial (most significant
coefficient first) by the generator polynomial `genPoly`.  `genPoly` is
monic, so each reduction step cancels the leading coefficient
(`a₀ ^^^ gfmul 1 a₀ = 0` for bytes, see `gfmul_one`) and drops it; the
division stops when fewer than 11 coefficients remain. -/
def gfPolyMod : List Nat → List Nat
  | [] => []
  | a0 :: rest =>
    if h : 10 ≤ rest.length then
      gfPolyMod ((List.zipWith (fun x g => x ^^^ gfmul g a0) (rest.take 10) gTail) ++
        rest.drop 10)
    else a0 :: rest
termination_by l => l.length
decreasing_by
  simp only [List.length_append, List.length_zipWith, List.length_take,
    List.length_drop, List.length_cons, gTail]
  omega

set_option maxRecDepth 10000 in
/-- For a byte, multiplication by the leading generator coefficient 1 is the
identity (so the leading coefficient of each `gfPolyMod` step cancels). -/
theorem gfmul_one : ∀ r < 256, gfmul 1 r = r := by decide

/-! ### XOR-difference algebra for the division registers

The key structural facts: one division iteration is, in the positions that
matter, GF(2)-linear in the register, and the multiplier `temp` only
depends on `register[0]`.  Hence running the checker division on
`message ++ ecc` instead of `message ++ zeros` changes the register by a
pure XOR difference that percolates down and cancels exactly against the
ECC bytes. -/

def zipXor (a b : List Nat) : List Nat := List.zipWith (fun x y => x ^^^ y) a b

theorem xor_left_comm (a b c : Nat) : a ^^^ (b ^^^ c) = b ^^^ (a ^^^ c) := by
  rw [← Nat.xor_assoc, Nat.xor_comm a b, Nat.xor_assoc]

theorem len_succ {α : Type} (l : List α) (n : Nat) (h : l.length = n + 1) :
    ∃ x t, l = x :: t ∧ t.length = n := by
  cases l with
  | nil => simp at h
  | cons x t => exact ⟨x, t, rfl, by simpa using h⟩

theorem exists_len10 (l : List Nat) (h : l.length = 10) :
    ∃ d1 d2 d3 d4 d5 d6 d7 d8 d9 d10,
      l = [d1, d2, d3, d4, d5, d6, d7, d8, d9, d10] := by
  obtain ⟨d1, l, rfl, h1⟩ := len_succ l 9 h
  obtain ⟨d2, l, rfl, h2⟩ := len_succ l 8 h1
  obtain ⟨d3, l, rfl, h3⟩ := len_succ l 7 h2
  obtain ⟨d4, l, rfl, h4⟩ := len_succ l 6 h3
  obtain ⟨d5, l, rfl, h5⟩ := len_succ l 5 h4
  obtain ⟨d6, l, rfl, h6⟩ := len_succ l 4 h5
  obtain ⟨d7, l, rfl, h7⟩ := len_succ l 3 h6
  obtain ⟨d8, l, rfl, h8⟩ := len_succ l 2 h7
  obtain ⟨d9, l, rfl, h9⟩ := len_succ l 1 h8
  obtain ⟨d10, l, rfl, h10⟩ := len_succ l 0 h9
  rw [List.length_eq_zero.1 h10]
  exact ⟨d1, d2, d3, d4, d5, d6, d7, d8, d9, d10, rfl⟩

theorem exists_len11 (l : List Nat) (h : l.length = 11) :
    ∃ a0 a1 a2 a3 a4 a5 a6 a7 a8 a9 a10,
      l = [a0, a1, a2, a3, a4, a5, a6, a7, a8, a9, a10] := by
  obtain ⟨a0, l, rfl, h0⟩ := len_succ l 10 h
  obtain ⟨a1, a2, a3, a4, a5, a6, a7, a8, a9, a10, rfl⟩ := exists_len10 l h0
  exact ⟨a0, a1, a2, a3, a4, a5, a6, a7, a8, a9, a10, rfl⟩

theorem zipXor_zero_right : ∀ l : List Nat, zipXor l (List.replicate l.length 0) = l := by
  intro l
  induction l with
  | nil => rfl
  | cons x l ih =>
    simp only [List.length_cons, List.replicate_succ, zipXor, List.zipWith_cons_cons]
    simp only [zipXor] at ih
    simp [ih]

theorem zipXor_self : ∀ l : List Nat, zipXor l l = List.replicate l.length 0 := by
  intro l
  induction l with
  | nil => rfl
  | cons x l ih =>
    simp only [List.length_cons, List.replicate_succ, zipXor, List.zipWith_cons_cons]
    simp only [zipXor] at ih
    simp [ih]

theorem stepNoLoad_length (r : List Nat) (h : r.length = 11) :
    (stepNoLoad r).length = 11 := by
  cases r with
  | nil => simp at h
  | cons a rest =>
    simp only [stepNoLoad, List.length_append, List.length_zipWith, gTail]
    simp at h
    simp [h]

theorem stepLoad_length (r : List Nat) (l : Nat) (h : r.length = 11) :
    (stepLoad r l).length = 11 := by
  simp [stepLoad, List.length_set, stepNoLoad_length r h]

theorem loadRun_length : ∀ (ls : List Nat) (r : List Nat), r.length = 11 →
    (loadRun r ls).length = 11 := by
  intro ls
  induction ls with
  | nil => intro r h; exact h
  | cons l ls ih =>
    intro r h
    show (loadRun (stepLoad r l) ls).length = 11
    exact ih _ (stepLoad_length r l h)

/-- One loading division step, applied to a register XOR-shifted by a
difference whose head is zero: the difference just shifts down.  This is
the heart of the zero-remainder proof: since the difference has head `0`
the multiplier `gf_multiply(genPoly, register[0])` is unchanged, and all
other updates are plain XORs. -/
theorem stepLoad_diff (S d : List Nat) (e : Nat) (hS : S.length = 11)
    (hd : d.length = 10) :
    stepLoad (zipXor S (0 :: d)) e = zipXor (stepLoad S 0) (d ++ [e]) := by
  obtain ⟨a0, a1, a2, a3, a4, a5, a6, a7, a8, a9, a10, rfl⟩ := exists_len11 S hS
  obtain ⟨d1, d2, d3, d4, d5, d6, d7, d8, d9, d10, rfl⟩ := exists_len10 d hd
  simp [stepLoad, stepNoLoad, zipXor, gTail, List.set, Nat.xor_zero,
    Nat.xor_assoc, Nat.xor_comm, xor_left_comm]

/-- The final (non-loading) step, restricted to the 10 remainder bytes:
a difference `0 :: es` becomes `es`. -/
theorem stepNoLoad_diff_take (X es : List Nat) (hX : X.length = 11)
    (hes : es.length = 10) :
    (stepNoLoad (zipXor X (0 :: es))).take 10 =
      zipXor ((stepNoLoad X).take 10) es := by
  obtain ⟨a0, a1, a2, a3, a4, a5, a6, a7, a8, a9, a10, rfl⟩ := exists_len11 X hX
  obtain ⟨d1, d2, d3, d4, d5, d6, d7, d8, d9, d10, rfl⟩ := exists_len10 es hes
  simp [stepNoLoad, zipXor, gTail, Nat.xor_zero,
    Nat.xor_assoc, Nat.xor_comm, xor_left_comm]

/-- Running the division with loads `es` from a register that differs by a
zero-padded difference: the final difference is `0 :: (t ++ es)`. -/
theorem loadRun_diff : ∀ (es : List Nat) (S t : List Nat),
    S.length = 11 → (es.length + 1) + t.length = 11 →
    loadRun (zipXor S (List.replicate (es.length + 1) 0 ++ t)) es =
      zipXor (loadRun S (List.replicate es.length 0)) (0 :: (t ++ es)) := by
  intro es
  induction es with
  | nil =>
    intro S t hS ht
    simp only [loadRun, List.foldl_nil, List.length_nil, Nat.zero_add,
      List.replicate_succ, List.replicate_zero, List.nil_append, List.append_nil]
    rfl
  | cons e es ih =>
    intro S t hS ht
    simp only [loadRun, List.foldl_cons, List.length_cons]
    have hlen : (List.replicate (es.length + 1) 0 ++ t).length = 10 := by
      simp at ht ⊢
      omega
    have hrw : List.replicate (es.length + 1 + 1) 0 ++ t =
        0 :: (List.replicate (es.length + 1) 0 ++ t) := by
      simp [List.replicate_succ]
    rw [hrw, stepLoad_diff S _ e hS hlen]
    rw [List.append_assoc]
    have := ih (stepLoad S 0) (t ++ [e]) (stepLoad_length S 0 hS)
      (by simp at ht ⊢; omega)
    show loadRun _ es = _
    rw [show loadRun (zipXor (stepLoad S 0)
        (List.replicate (es.length + 1) 0 ++ (t ++ [e]))) es =
      zipXor (loadRun (stepLoad S 0) (List.replicate es.length 0))
        (0 :: (t ++ [e] ++ es)) from this]
    have hfold : List.foldl stepLoad S (List.replicate (es.length + 1) 0) =
        loadRun (stepLoad S 0) (List.replicate es.length 0) := by
      simp [loadRun, List.replicate_succ]
    rw [show List.replicate (es.length + 1) 0 =
        0 :: List.replicate es.length 0 from by simp [List.replicate_succ]]
    simp only [List.foldl_cons]
    show zipXor _ _ = zipXor (loadRun (stepLoad S 0) (List.replicate es.length 0)) _
    congr 1
    simp

/-- The long division `gfPolyMod` on `r ++ ls` (`|r| = 11`) is the register
run: each reduction step consumes one further coefficient, and the final
step leaves the 10 remainder bytes. -/
theorem gfPolyMod_run : ∀ (ls r : List Nat), r.length = 11 →
    gfPolyMod (r ++ ls) = (stepNoLoad (loadRun r ls)).take 10 := by
  intro ls
  induction ls with
  | nil =>
    intro r hr
    obtain ⟨a0, a1, a2, a3, a4, a5, a6, a7, a8, a9, a10, rfl⟩ := exists_len11 r hr
    simp [gfPolyMod, stepNoLoad, loadRun, gTail]
  | cons l ls ih =>
    intro r hr
    obtain ⟨a0, a1, a2, a3, a4, a5, a6, a7, a8, a9, a10, rfl⟩ := exists_len11 r hr
    have hstep : stepLoad [a0, a1, a2, a3, a4, a5, a6, a7, a8, a9, a10] l =
        (List.zipWith (fun x g => x ^^^ gfmul g a0)
          [a1, a2, a3, a4, a5, a6, a7, a8, a9, a10] gTail) ++ [l] := by
      simp [stepLoad, stepNoLoad, gTail, List.set_append]
    have hscrut : gfPolyMod ([a0, a1, a2, a3, a4, a5, a6, a7, a8, a9, a10] ++ l :: ls) =
        gfPolyMod (stepLoad [a0, a1, a2, a3, a4, a5, a6, a7, a8, a9, a10] l ++ ls) := by
      rw [hstep]
      rw [show ([a0, a1, a2, a3, a4, a5, a6, a7, a8, a9, a10] : List Nat) ++ l :: ls =
        a0 :: ([a1, a2, a3, a4, a5, a6, a7, a8, a9, a10] ++ l :: ls) from rfl]
      rw [gfPolyMod]
      rw [dif_pos (by simp)]
      rw [List.take_append_of_le_length (by simp), List.drop_append_of_le_length (by simp)]
      simp [List.append_assoc]
    rw [hscrut, ih _ (stepLoad_length _ l hr)]
    rfl

theorem mem_zipWith {f : Nat → Nat → Nat} :
    ∀ {as bs : List Nat} {x : Nat}, x ∈ List.zipWith f as bs →
      ∃ a b, a ∈ as ∧ b ∈ bs ∧ x = f a b := by
  intro as
  induction as with
  | nil => intro bs x h; simp at h
  | cons a as ih =>
    intro bs x h
    cases bs with
    | nil => simp at h
    | cons b bs =>
      rw [List.zipWith_cons_cons] at h
      rcases List.mem_cons.1 h with h | h
      · exact ⟨a, b, by simp, by simp, h⟩
      · obtain ⟨a', b', ha, hb, hx⟩ := ih h
        exact ⟨a', b', by simp [ha], by simp [hb], hx⟩

theorem gfmul_lt (c s : Nat) : gfmul c s < 256 := by
  have : gfReduce (gfClmul c s) ≤ 255 := Nat.and_le_right
  simpa [gfmul] using Nat.lt_of_le_of_lt this (by norm_num)

theorem stepNoLoad_bytes (r : List Nat) (h : ∀ x ∈ r, x < 256) :
    ∀ x ∈ stepNoLoad r, x < 256 := by
  cases r with
  | nil => simp [stepNoLoad]
  | cons a rest =>
    intro x hx
    simp only [stepNoLoad] at hx
    rcases List.mem_append.1 hx with hx | hx
    · obtain ⟨u, g, hu, _, rfl⟩ := mem_zipWith hx
      have hu256 : u < 256 := h u (by simp [hu])
      exact Nat.xor_lt_two_pow (n := 8) hu256 (gfmul_lt g a)
    · have hx' : x = rest.getD 9 0 := List.mem_singleton.1 hx
      subst hx'
      by_cases h9 : 9 < rest.length
      · have hmem : rest.getD 9 0 ∈ rest := by
          rw [List.getD_eq_getElem rest 0 h9]
          exact List.getElem_mem h9
        exact h _ (List.mem_cons_of_mem a hmem)
      · rw [List.getD_eq_default rest 0 (by omega)]
        norm_num

theorem loadRun_append (r l1 l2 : List Nat) :
    loadRun r (l1 ++ l2) = loadRun (loadRun r l1) l2 := by
  simp [loadRun, List.foldl_append]

theorem stepLoad_bytes (r : List Nat) (l : Nat) (hr : ∀ x ∈ r, x < 256)
    (hl : l < 256) : ∀ x ∈ stepLoad r l, x < 256 := by
  intro x hx
  rcases List.mem_or_eq_of_mem_set hx with h | h
  · exact stepNoLoad_bytes r hr x h
  · omega

theorem loadRun_bytes : ∀ (ls r : List Nat), (∀ x ∈ r, x < 256) →
    (∀ x ∈ ls, x < 256) → ∀ x ∈ loadRun r ls, x < 256 := by
  intro ls
  induction ls with
  | nil => intro r hr _; exact hr
  | cons l ls ih =>
    intro r hr hls
    show ∀ x ∈ loadRun (stepLoad r l) ls, x < 256
    exact ih _ (stepLoad_bytes r l hr (hls l (by simp)))
      (fun x hx => hls x (by simp [hx]))

theorem getD_le_one (bits : List Nat) (h : ∀ x ∈ bits, x ≤ 1) (i : Nat) :
    bits.getD i 0 ≤ 1 := by
  by_cases hi : i < bits.length
  · rw [List.getD_eq_getElem bits 0 hi]
    exact h _ (List.getElem_mem hi)
  · rw [List.getD_eq_default bits 0 (by omega)]
    norm_num

theorem packByte_lt (bits : List Nat) (h : ∀ x ∈ bits, x ≤ 1) (n : Nat) :
    packByte bits n < 256 := by
  unfold packByte
  have h0 := getD_le_one bits h (8 * n)
  have h1 := getD_le_one bits h (8 * n + 1)
  have h2 := getD_le_one bits h (8 * n + 2)
  have h3 := getD_le_one bits h (8 * n + 3)
  have h4 := getD_le_one bits h (8 * n + 4)
  have h5 := getD_le_one bits h (8 * n + 5)
  have h6 := getD_le_one bits h (8 * n + 6)
  have h7 := getD_le_one bits h (8 * n + 7)
  omega

theorem messageBytes_bytes (data : List Nat) (h : ∀ x ∈ data, x ≤ 1) :
    ∀ x ∈ messageBytes data, x < 256 := by
  intro x hx
  obtain ⟨n, _, rfl⟩ := List.mem_map.1 hx
  exact packByte_lt data h n

theorem messageBytes_length (data : List Nat) : (messageBytes data).length = 34 := by
  simp [messageBytes]

theorem eccRegister_length (msg : List Nat) (h : msg.length = 34) :
    (eccRegister msg).length = 11 := by
  unfold eccRegister
  exact stepNoLoad_length _ (loadRun_length _ _ (by simp [List.length_take]; omega))

theorem getD_map_byteBits (L : List Nat) (k : Nat) (hk : k < L.length) :
    (L.map byteBits).getD k [] = byteBits (L.getD k 0) := by
  rw [List.getD_eq_getElem?_getD, List.getElem?_map, List.getD_eq_getElem?_getD,
    List.getElem?_eq_getElem hk]
  simp

theorem byteBits_length (r : Nat) : (byteBits r).length = 8 := rfl

/-- Index arithmetic for the flattened ECC bit blocks. -/
theorem join_byteBits_getD : ∀ (L : List Nat) (k j : Nat), k < L.length → j < 8 →
    ((L.map byteBits).join).getD (8 * k + j) 0 = (byteBits (L.getD k 0)).getD j 0 := by
  intro L
  induction L with
  | nil => intro k j hk _; simp at hk
  | cons a L ih =>
    intro k j hk hj
    cases k with
    | zero =>
      simp only [List.map_cons, List.join_cons, Nat.mul_zero, Nat.zero_add]
      rw [List.getD_append _ _ _ _ (by rw [byteBits_length]; omega)]
      rfl
    | succ k =>
      simp only [List.map_cons, List.join_cons]
      rw [List.getD_append_right _ _ _ _ (by rw [byteBits_length]; omega)]
      rw [byteBits_length]
      have : 8 * (k + 1) + j - 8 = 8 * k + j := by ring_nf; omega
      rw [this, ih k j (by simpa using hk) hj]
      rfl

set_option maxRecDepth 10000 in
/-- Packing the 8 expansion bits of a byte recovers the byte. -/
theorem pack_byteBits : ∀ e < 256,
    (byteBits e).getD 0 0 * 128 + (byteBits e).getD 1 0 * 64 +
    (byteBits e).getD 2 0 * 32 + (byteBits e).getD 3 0 * 16 +
    (byteBits e).getD 4 0 * 8 + (byteBits e).getD 5 0 * 4 +
    (byteBits e).getD 6 0 * 2 + (byteBits e).getD 7 0 = e := by decide

theorem eccRegister_bytes (msg : List Nat) (hb : ∀ x ∈ msg, x < 256) :
    ∀ x ∈ eccRegister msg, x < 256 := by
  unfold eccRegister
  apply stepNoLoad_bytes
  apply loadRun_bytes
  · exact fun x hx => hb x (List.mem_of_mem_take hx)
  · intro x hx
    have := List.mem_of_mem_drop hx
    rcases List.mem_append.1 this with h | h
    · exact hb x h
    · have := List.eq_of_mem_replicate h
      omega

theorem list_eq_map_range_getD (L : List Nat) (n : Nat) (h : L.length = n) :
    L = (List.range n).map (fun k => L.getD k 0) := by
  apply List.ext_getElem (by simp [h])
  intro i h1 h2
  simp only [List.getElem_map, List.getElem_range]
  rw [List.getD_eq_getElem L 0 h1]

theorem codeword_split (data : List Nat) (hlen : data.length = 272)
    (hbits : ∀ x ∈ data, x ≤ 1) :
    codeword data = messageBytes data ++ (eccRegister (messageBytes data)).take 10 := by
  have hMb : ∀ x ∈ messageBytes data, x < 256 := messageBytes_bytes data hbits
  have hecclen : ((eccRegister (messageBytes data)).take 10).length = 10 := by
    rw [List.length_take, eccRegister_length _ (messageBytes_length data)]
    decide
  have heccb : ∀ x ∈ (eccRegister (messageBytes data)).take 10, x < 256 := by
    intro x hx
    exact eccRegister_bytes (messageBytes data) hMb x (List.mem_of_mem_take hx)
  have hout : ∀ i < 272, (apply_ecc data).getD i 0 = data.getD i 0 := by
    intro i hi
    unfold apply_ecc
    exact List.getD_append _ _ _ _ (by omega)
  have houtR : ∀ m, (apply_ecc data).getD (272 + m) 0 =
      ((((eccRegister (messageBytes data)).take 10).map byteBits).join).getD m 0 := by
    intro m
    unfold apply_ecc
    rw [List.getD_append_right _ _ _ _ (by omega)]
    rw [hlen]
    simp
  have h1 : (List.range 34).map (packByte (apply_ecc data)) = messageBytes data := by
    unfold messageBytes
    apply List.map_congr_left
    intro n hn
    have hn34 : n < 34 := List.mem_range.1 hn
    unfold packByte
    rw [hout (8 * n) (by omega), hout (8 * n + 1) (by omega), hout (8 * n + 2) (by omega),
      hout (8 * n + 3) (by omega), hout (8 * n + 4) (by omega), hout (8 * n + 5) (by omega),
      hout (8 * n + 6) (by omega), hout (8 * n + 7) (by omega)]
  have h2 : (List.range 10).map (packByte (apply_ecc data) ∘ fun x => 34 + x) =
      (eccRegister (messageBytes data)).take 10 := by
    conv_rhs => rw [list_eq_map_range_getD ((eccRegister (messageBytes data)).take 10) 10 hecclen]
    apply List.map_congr_left
    intro k hk
    have hk10 : k < 10 := List.mem_range.1 hk
    show packByte (apply_ecc data) (34 + k) = _
    unfold packByte
    have hidx0 : 8 * (34 + k) = 272 + (8 * k + 0) := by ring
    rw [hidx0]
    have f : ∀ j : Nat, 272 + (8 * k + 0) + j = 272 + (8 * k + j) := by intro j; ring
    rw [f 1, f 2, f 3, f 4, f 5, f 6, f 7]
    rw [houtR, houtR, houtR, houtR, houtR, houtR, houtR, houtR]
    have hjoin : ∀ j, j < 8 →
        (((((eccRegister (messageBytes data)).take 10).map byteBits).join).getD (8 * k + j) 0) =
        (byteBits (((eccRegister (messageBytes data)).take 10).getD k 0)).getD j 0 := by
      intro j hj
      exact join_byteBits_getD _ k j (by omega) hj
    rw [hjoin 0 (by omega), hjoin 1 (by omega), hjoin 2 (by omega), hjoin 3 (by omega),
      hjoin 4 (by omega), hjoin 5 (by omega), hjoin 6 (by omega), hjoin 7 (by omega)]
    apply pack_byteBits
    by_cases hlt : k < ((eccRegister (messageBytes data)).take 10).length
    · rw [List.getD_eq_getElem _ 0 hlt]
      exact heccb _ (List.getElem_mem hlt)
    · rw [List.getD_eq_default _ 0 (by omega)]
      norm_num
  unfold codeword
  rw [show (44 : Nat) = 34 + 10 from rfl, List.range_add, List.map_append, List.map_map]
  rw [h1, h2]

/-- C2: for every 272-entry bit array, packing it into 34 message bytes
MSB-first and appending the 10 ECC bytes computed by `apply_ecc` yields a
44-byte codeword that leaves zero remainder when divided (in GF(256), with
reduction polynomial `0x11D`) by the generator polynomial
`G = [1,216,194,159,111,199,94,95,113,157,193]`. -/
theorem C2_rs_zero_remainder (data : List Nat) (hlen : data.length = 272)
    (hbits : ∀ x ∈ data, x ≤ 1) :
    gfPolyMod (codeword data) = List.replicate 10 0 := by
  rw [codeword_split data hlen hbits]
  have hMlen0 := messageBytes_length data
  generalize hM : messageBytes data = M
  rw [hM] at hMlen0
  have htlen : (M.take 11).length = 11 := by rw [List.length_take]; omega
  have hassoc : M ++ (eccRegister M).take 10 =
      M.take 11 ++ (M.drop 11 ++ (eccRegister M).take 10) := by
    rw [← List.append_assoc, List.take_append_drop]
  rw [hassoc, gfPolyMod_run _ _ htlen, loadRun_append]
  have hreg : eccRegister M =
      stepNoLoad (loadRun (loadRun (M.take 11) (M.drop 11)) (List.replicate 10 0)) := by
    unfold eccRegister
    rw [List.drop_append_of_le_length (by omega), loadRun_append]
  rw [hreg]
  generalize hX : loadRun (M.take 11) (M.drop 11) = X
  have hXlen : X.length = 11 := by rw [← hX]; exact loadRun_length _ _ htlen
  generalize hE : (stepNoLoad (loadRun X (List.replicate 10 0))).take 10 = eccB
  have heccBlen : eccB.length = 10 := by
    rw [← hE, List.length_take,
      stepNoLoad_length _ (loadRun_length _ _ hXlen)]
    decide
  have hdiff := loadRun_diff eccB X [] hXlen (by simp [heccBlen])
  rw [heccBlen] at hdiff
  simp only [List.append_nil, List.nil_append] at hdiff
  have hzero : zipXor X (List.replicate (10 + 1) 0) = X := by
    rw [show 10 + 1 = 11 from rfl, ← hXlen]
    exact zipXor_zero_right X
  rw [hzero] at hdiff
  rw [hdiff, stepNoLoad_diff_take _ _ (loadRun_length _ _ hXlen) heccBlen, hE,
    zipXor_self, heccBlen]

theorem C2_rs_zero_remainder_witness :
    gfPolyMod (codeword (List.replicate 272 0)) = List.replicate 10 0 :=
  C2_rs_zero_remainder (List.replicate 272 0) (List.length_replicate 272 0)
    (fun x hx => by rw [List.eq_of_mem_replicate hx]; omega)

/-! ### The 25×25 module matrix (`qr_code.rs::Matrix`)

The module grid and the reservation bitmap are functions from (row, col);
an element write becomes a pointwise function update. -/

structure Matrix where
  data : Nat → Nat → Nat
  mask : Nat → Nat → Bool

def upd2 (f : Nat → Nat → Nat) (r c v : Nat) : Nat → Nat → Nat :=
  fun r' c' => if r' = r ∧ c' = c then v else f r' c'

/-- `self.data[r][c] = v` -/
def writeData (m : Matrix) (r c v : Nat) : Matrix :=
  { m with data := upd2 m.data r c v }

/-- `self.mask[r][c] = true` -/
def writeMask (m : Matrix) (r c : Nat) : Matrix :=
  { m with mask := fun r' c' => if r' = r ∧ c' = c then true else m.mask r' c' }

/-- `for n in 0..k { … }` -/
def foldRange (k : Nat) (f : Matrix → Nat → Matrix) (m : Matrix) : Matrix :=
  (List.range k).foldl f m

/-- `Matrix::new` -/
def Matrix.new : Matrix := ⟨fun _ _ => 0, fun _ _ => false⟩

/-- The writes of `Matrix::place_finder_pattern` for one corner point. -/
def placeFinderAt (m : Matrix) (p : Nat × Nat) : Matrix :=
  let m := foldRange 7 (fun m n => writeData m (p.1 + 0) (p.2 + n) 1) m
  let m := foldRange 7 (fun m n => writeData m (p.1 + n) (p.2 + 0) 1) m
  let m := foldRange 7 (fun m n => writeData m (p.1 + 6) (p.2 + n) 1) m
  let m := foldRange 7 (fun m n => writeData m (p.1 + n) (p.2 + 6) 1) m
  foldRange 3 (fun m n => foldRange 3 (fun m i =>
    writeData m (p.1 + 2 + n) (p.2 + 2 + i) 1) m) m

/-- `Matrix::place_finder_pattern` -/
def place_finder_pattern (m : Matrix) : Matrix :=
  let m := placeFinderAt m (0, 0)
  let m := placeFinderAt m (18, 0)
  let m := placeFinderAt m (0, 18)
  let m := foldRange 8 (fun m n => foldRange 8 (fun m i => writeMask m (0 + n) (0 + i)) m) m
  let m := foldRange 8 (fun m n => foldRange 8 (fun m i => writeMask m (18 - 1 + n) (0 + i)) m) m
  foldRange 8 (fun m n => foldRange 8 (fun m i => writeMask m (0 + n) (18 - 1 + i)) m) m

/-- `Matrix::place_alignment_pattern` (centre point `(18, 18)`). -/
def place_alignment_pattern (m : Matrix) : Matrix :=
  let m := writeData m 18 18 1
  let m := foldRange 5 (fun m n => writeData m (18 - 2 + 0) (18 - 2 + n) 1) m
  let m := foldRange 5 (fun m n => writeData m (18 - 2 + n) (18 - 2 + 0) 1) m
  let m := foldRange 5 (fun m n => writeData m (18 + 2 + 0) (18 - 2 + n) 1) m
  let m := foldRange 5 (fun m n => writeData m (18 - 2 + n) (18 + 2 + 0) 1) m
  foldRange 5 (fun m n => foldRange 5 (fun m i => writeMask m (18 - 2 + n) (18 - 2 + i)) m) m

/-- `Matrix::place_dark_module`: `data[17][8] = 1`, reserved. -/
def place_dark_module (m : Matrix) : Matrix :=
  writeMask (writeData m 17 8 1) 17 8

/-- `Matrix::place_timing_pattern` -/
def place_timing_pattern (m : Matrix) : Matrix :=
  let m := foldRange 9 (fun m n =>
    writeMask (if n % 2 = 0 then writeData m 6 (8 + n) 1 else m) 6 (8 + n)) m
  foldRange 9 (fun m n =>
    writeMask (if n % 2 = 0 then writeData m (8 + n) 6 1 else m) (8 + n) 6) m

/-- `Matrix::reserve_format_area` -/
def reserve_format_area (m : Matrix) : Matrix :=
  foldRange 25 (fun m n =>
    if n ≤ 8 ∨ 17 ≤ n then writeMask (writeMask m 8 n) n 8 else m) m

/-- The upward inner loop of `Matrix::fill_data` (fuel ≥ 25 suffices: the
row decreases or the loop breaks). -/
def fillUp : Nat → Matrix → Nat → Nat → Nat → List Nat → Matrix × Nat × Nat
  | 0, m, row, _, index, _ => (m, row, index)
  | fuel + 1, m, row, col, index, bits =>
    let s1 := if m.mask row col = false
      then (writeData m row col (bits.getD index 0), index + 1) else (m, index)
    if s1.2 = bits.length then (s1.1, row, s1.2)
    else
      let s2 := if s1.1.mask row (col - 1) = false
        then (writeData s1.1 row (col - 1) (bits.getD s1.2 0), s1.2 + 1) else s1
      if s2.2 = bits.length then (s2.1, row, s2.2)
      else if row = 0 then (s2.1, row, s2.2)
      else fillUp fuel s2.1 (row - 1) col s2.2 bits

/-- The downward inner loop of `Matrix::fill_data`. -/
def fillDown : Nat → Matrix → Nat → Nat → Nat → List Nat → Matrix × Nat × Nat
  | 0, m, row, _, index, _ => (m, row, index)
  | fuel + 1, m, row, col, index, bits =>
    let s1 := if m.mask row col = false
      then (writeData m row col (bits.getD index 0), index + 1) else (m, index)
    if s1.2 = bits.length then (s1.1, row, s1.2)
    else
      let s2 := if s1.1.mask row (col - 1) = false
        then (writeData s1.1 row (col - 1) (bits.getD s1.2 0), s1.2 + 1) else s1
      if s2.2 = bits.length then (s2.1, row, s2.2)
      else if row = 24 then (s2.1, row, s2.2)
      else fillDown fuel s2.1 (row + 1) col s2.2 bits

/-- The outer loop of `Matrix::fill_data`: an up pass and a down pass per
iteration, moving left by two column pairs and skipping column 6. -/
def fillLoop : Nat → Matrix → Nat → Nat → Nat → List Nat → Matrix
  | 0, m, _, _, _, _ => m
  | fuel + 1, m, row, col, index, bits =>
    if index < bits.length then
      let u := fillUp 25 m row col index bits
      let col1 := col - 2
      let col2 := if col1 = 6 then col1 - 1 else col1
      let d := fillDown 25 u.1 u.2.1 col2 u.2.2 bits
      let col3 := if 1 < col2 then col2 - 2 else col2
      let col4 := if col3 = 6 then col3 - 1 else col3
      fillLoop fuel d.1 d.2.1 col4 d.2.2 bits
    else m

/-- `Matrix::fill_data`: start at `(24, 24)`, bit cursor 0. -/
def fill_data (m : Matrix) (bits : List Nat) : Matrix :=
  fillLoop 13 m 24 24 0 bits

/-- The eight mask predicates of `Matrix::transform`. -/
def maskEval (mask_no row col : Nat) : Nat :=
  match mask_no with
  | 0 => (row + col) % 2
  | 1 => row % 2
  | 2 => col % 3
  | 3 => (row + col) % 3
  | 4 => (row / 2 + col / 3) % 2
  | 5 => (row * col) % 2 + (row * col) % 3
  | 6 => ((row * col) % 2 + (row * col) % 3) % 2
  | _ => ((row + col) % 2 + (row * col) % 3) % 2

/-- `Matrix::flip_bit` -/
def flip_bit (m : Matrix) (row col : Nat) : Matrix :=
  if m.mask row col = true then m
  else if m.data row col = 1 then writeData m row col 0
  else writeData m row col 1

/-- `Matrix::transform`: toggle non-reserved cells where the mask predicate
is zero. -/
def transform (m : Matrix) (mask_no : Nat) : Matrix :=
  foldRange 25 (fun m row => foldRange 25 (fun m col =>
    if m.mask row col then m
    else if maskEval mask_no row col = 0 then flip_bit m row col else m) m) m

/-- `pattern == [0; 5] || pattern == [1; 5]` -/
def win5 (v0 v1 v2 v3 v4 : Nat) : Bool :=
  decide ([v0, v1, v2, v3, v4] = [0, 0, 0, 0, 0] ∨ [v0, v1, v2, v3, v4] = [1, 1, 1, 1, 1])

/-- Rule 1 accumulator: `+3` on entering a matching window, `+1` while the
streak continues, reset on a non-matching window. -/
def r1Step (s : Nat × Bool) (w : Bool) : Nat × Bool :=
  if w then (if s.2 then (s.1 + 1, true) else (s.1 + 3, true)) else (s.1, false)

/-- Rule 1 of `Matrix::evaluate`: the row scan (rows 0–24, windows 0–20 in
each row) with a single `continuous` flag, then — after one reset — the
column scan (`for row in 0..21 { for col in 0..25 { … } }`, i.e. the window
start row varies slowly and the column fast, exactly as in the source). -/
def evaluateR1 (m : Matrix) : Nat :=
  let p1 := (List.range 25).foldl (fun s row =>
    (List.range 21).foldl (fun s col =>
      r1Step s (win5 (m.data row col) (m.data row (col + 1)) (m.data row (col + 2))
        (m.data row (col + 3)) (m.data row (col + 4)))) s) (0, false)
  let p2 := (List.range 21).foldl (fun s row =>
    (List.range 25).foldl (fun s col =>
      r1Step s (win5 (m.data row col) (m.data (row + 1) col) (m.data (row + 2) col)
        (m.data (row + 3) col) (m.data (row + 4) col))) s) (p1.1, false)
  p2.1

/-- Rule 2 of `Matrix::evaluate`: 3 per uniform 2×2 block. -/
def evaluateR2 (m : Matrix) : Nat :=
  (List.range 23).foldl (fun s row => (List.range 23).foldl (fun s col =>
    if decide ([m.data row col, m.data (row + 1) col, m.data row (col + 1),
        m.data (row + 1) (col + 1)] = [0, 0, 0, 0] ∨
      [m.data row col, m.data (row + 1) col, m.data row (col + 1),
        m.data (row + 1) (col + 1)] = [1, 1, 1, 1])
    then s + 3 else s) s) 0

def searchPtn1 : List Nat := [0, 0, 0, 0, 1, 0, 1, 1, 1, 0, 1]
def searchPtn2 : List Nat := [1, 0, 1, 1, 1, 0, 1, 0, 0, 0, 0]

/-- Rule 3 of `Matrix::evaluate`: 40 per finder-like 11-window. -/
def evaluateR3 (m : Matrix) : Nat :=
  let rows := (List.range 25).foldl (fun s row => (List.range 15).foldl (fun s col =>
    if decide ((List.range 11).map (fun n => m.data row (col + n)) = searchPtn1 ∨
        (List.range 11).map (fun n => m.data row (col + n)) = searchPtn2)
    then s + 40 else s) s) 0
  (List.range 15).foldl (fun s row => (List.range 25).foldl (fun s col =>
    if decide ((List.range 11).map (fun n => m.data (row + n) col) = searchPtn1 ∨
        (List.range 11).map (fun n => m.data (row + n) col) = searchPtn2)
    then s + 40 else s) s) rows

/-- The dark-module count of rule 4. -/
def countDark (m : Matrix) : Nat :=
  (List.range 25).foldl (fun s row => (List.range 25).foldl (fun s col =>
    if m.data row col = 1 then s + 1 else s) s) 0

/-- `while upper_multiple < percentage { upper_multiple += 5 }` (fuel 21
covers every percentage ≤ 100). -/
def upperMult : Nat → Nat → Nat → Nat
  | 0, u, _ => u
  | f + 1, u, p => if u < p then upperMult f (u + 5) p else u

/-- Rule 4 of `Matrix::evaluate` as a function of the integer percentage:
the adjacent multiples of five are `upper − 5` and `upper` (signed), and
the penalty is twice the smaller distance from 50. -/
def r4FromP (p : Nat) : Nat :=
  let upper : Int := upperMult 21 0 p
  let a : Int := upper - 5 - 50
  let b : Int := upper - 50
  if a.natAbs ≤ b.natAbs then a.natAbs * 2 else b.natAbs * 2

def evaluateR4 (m : Matrix) : Nat :=
  r4FromP (countDark m * 100 / 625)

/-- `Matrix::evaluate`: the four rules accumulate into one score. -/
def evaluate (m : Matrix) : Nat :=
  evaluateR1 m + evaluateR2 m + evaluateR3 m + evaluateR4 m

/-- Bit length of a 16-bit value (largest `k + 1` with `2 ^ k ≤ x`). -/
def size16 (x : Nat) : Nat :=
  (List.range 16).foldl (fun acc k => if 2 ^ k ≤ x then k + 1 else acc) 0

/-- `u16::leading_zeros`. -/
def lz16 (x : Nat) : Nat := 16 - size16 x

/-- `while gen_poly.leading_zeros() != format_string.leading_zeros()
{ gen_poly >>= 1 }` (fuel 16). -/
def bchAlign : Nat → Nat → Nat → Nat
  | 0, g, _ => g
  | f + 1, g, fs => if lz16 g = lz16 fs then g else bchAlign f (g >>> 1) fs

/-- `while format_string.leading_zeros() < 6 { align; xor }` (fuel 16). -/
def bchLoop : Nat → Nat → Nat → Nat
  | 0, _, fs => fs
  | f + 1, g, fs =>
    if lz16 fs < 6 then
      let g2 := bchAlign 16 g fs
      bchLoop f g2 (fs ^^^ g2)
    else fs

/-- The 15 format bits of `Matrix::place_format_string` (MSB first):
BCH(15,5) remainder of `(8 + mask_no) << 10`, data bits OR-ed back, then
the fixed XOR mask `0b101010000010010`. -/
def formatBits (mask_no : Nat) : List Nat :=
  let fs0 := (8 + mask_no) <<< 10
  let fs1 := bchLoop 16 (0b10100110111 <<< 3) fs0
  let fs2 := fs1 ^^^ ((8 + mask_no) <<< 10)
  let fs3 := fs2 ^^^ 0b101010000010010
  (List.range 15).map (fun n => if fs3 &&& (2 ^ (14 - n)) = 2 ^ (14 - n) then 1 else 0)

/-- The placement loop of `Matrix::place_format_string`. -/
def place_format_string (m : Matrix) (mask_no : Nat) : Matrix :=
  let bits := formatBits mask_no
  foldRange 8 (fun m n =>
    let m := if n < 6
      then writeData (writeData m 8 n (bits.getD n 0)) n 8 (bits.getD (14 - n) 0)
      else writeData (writeData m 8 (n + 1) (bits.getD n 0)) (1 + n) 8 (bits.getD (14 - n) 0)
    let m := if n < 7 then writeData m (24 - n) 8 (bits.getD n 0) else m
    writeData m 8 (24 - n) (bits.getD (14 - n) 0)) m

/-- The mask selection of `Matrix::mask_and_place_format_string`:
`lowest_score` starts at `(0, usize::MAX)` and is updated on strict
improvement, so ties go to the lower index. -/
def chooseMask (m : Matrix) : Nat :=
  ((List.range 8).foldl (fun best n =>
    if evaluate (transform m n) < best.2 then (n, evaluate (transform m n)) else best)
    (0, 2 ^ 64 - 1)).1

/-- `Matrix::mask_and_place_format_string`. -/
def mask_and_place_format_string (m : Matrix) : Matrix :=
  let best := chooseMask m
  let m2 := { m with data := (transform m best).data }
  place_format_string m2 best

/-- The matrix after the placement phases, in the order of `main.rs`. -/
def placedMatrix : Matrix :=
  reserve_format_area (place_timing_pattern (place_dark_module
    (place_alignment_pattern (place_finder_pattern Matrix.new))))

/-- The final 25×25 matrix of the pipeline, as a function of the 352
data-and-ECC bits. -/
def finalMatrix (bits : List Nat) : Matrix :=
  mask_and_place_format_string (fill_data placedMatrix bits)

/-! ### Claims C4, C5, C6 -/

/-- The row windows of rule 1 in the code's scan order (row-major). -/
def rowWindows (m : Matrix) : List Bool :=
  ((List.range 25).map (fun row => (List.range 21).map (fun col =>
    win5 (m.data row col) (m.data row (col + 1)) (m.data row (col + 2))
      (m.data row (col + 3)) (m.data row (col + 4))))).join

/-- The column windows of rule 1 in the code's scan order: the inner loop
varies the **column**, the outer loop the starting row. -/
def colWindows (m : Matrix) : List Bool :=
  ((List.range 21).map (fun row => (List.range 25).map (fun col =>
    win5 (m.data row col) (m.data (row + 1) col) (m.data (row + 2) col)
      (m.data (row + 3) col) (m.data (row + 4) col)))).join

mutual
/-- Total rule-1 score of a window sequence: each maximal run of
consecutive matching windows contributes `3 + (run length − 1)`. -/
def runScore : List Bool → Nat
  | [] => 0
  | false :: ws => runScore ws
  | true :: ws => 3 + contScore ws

/-- Score of a window sequence while inside a run. -/
def contScore : List Bool → Nat
  | [] => 0
  | true :: ws => 1 + contScore ws
  | false :: ws => runScore ws
end

theorem r1_fold (ws : List Bool) : ∀ s : Nat,
    ((ws.foldl r1Step (s, false)).1 = s + runScore ws) ∧
    ((ws.foldl r1Step (s, true)).1 = s + contScore ws) := by
  induction ws with
  | nil => intro s; simp [runScore, contScore]
  | cons w ws ih =>
    intro s
    have e1 : ∀ t : Nat, r1Step (t, false) false = (t, false) := fun t => rfl
    have e2 : ∀ t : Nat, r1Step (t, true) false = (t, false) := fun t => rfl
    have e3 : ∀ t : Nat, r1Step (t, false) true = (t + 3, true) := fun t => rfl
    have e4 : ∀ t : Nat, r1Step (t, true) true = (t + 1, true) := fun t => rfl
    cases w
    · refine ⟨?_, ?_⟩
      · rw [List.foldl_cons, e1, runScore]; exact (ih s).1
      · rw [List.foldl_cons, e2, contScore]; exact (ih s).1
    · refine ⟨?_, ?_⟩
      · rw [List.foldl_cons, e3, runScore]
        have h := (ih (s + 3)).2
        omega
      · rw [List.foldl_cons, e4, contScore]
        have h := (ih (s + 1)).2
        omega

theorem foldl_join {α β : Type} (f : β → α → β) :
    ∀ (L : List (List α)) (b : β), (L.join).foldl f b = L.foldl (fun b l => l.foldl f b) b := by
  intro L
  induction L with
  | nil => intro b; rfl
  | cons l L ih => intro b; simp [List.foldl_append, ih]

/-- The claimed rule 1 (C4's formula): every row and every column scanned
independently, the streak never crossing a row or column boundary. -/
def specR1 (m : Matrix) : Nat :=
  ((List.range 25).map (fun row =>
    (((List.range 21).map (fun col =>
      win5 (m.data row col) (m.data row (col + 1)) (m.data row (col + 2))
        (m.data row (col + 3)) (m.data row (col + 4)))).foldl r1Step (0, false)).1)).sum +
  ((List.range 25).map (fun col =>
    (((List.range 21).map (fun row =>
      win5 (m.data row col) (m.data (row + 1) col) (m.data (row + 2) col)
        (m.data (row + 3) col) (m.data (row + 4) col))).foldl r1Step (0, false)).1)).sum

theorem win5_zero : win5 0 0 0 0 0 = true := rfl

theorem foldTrue_true : ∀ (n : Nat) (s : Nat),
    (List.replicate n true).foldl r1Step (s, true) = (s + n, true) := by
  intro n
  induction n with
  | zero => intro s; simp
  | succ n ih =>
    intro s
    rw [List.replicate_succ, List.foldl_cons]
    have e : r1Step (s, true) true = (s + 1, true) := rfl
    rw [e, ih]
    simp only [Prod.mk.injEq, and_true]
    omega

theorem foldTrue_false (n s : Nat) (h : 1 ≤ n) :
    (List.replicate n true).foldl r1Step (s, false) = (s + n + 2, true) := by
  obtain ⟨m, rfl⟩ : ∃ m, n = m + 1 := ⟨n - 1, by omega⟩
  rw [List.replicate_succ, List.foldl_cons]
  have e : r1Step (s, false) true = (s + 3, true) := rfl
  rw [e, foldTrue_true]
  simp only [Prod.mk.injEq, and_true]
  omega

theorem fold_const_true {α : Type} : ∀ (l : List α) (s : Nat × Bool),
    l.foldl (fun s _ => r1Step s true) s =
      (List.replicate l.length true).foldl r1Step s := by
  intro l
  induction l with
  | nil => intro s; rfl
  | cons a l ih =>
    intro s
    rw [List.foldl_cons, List.length_cons, List.replicate_succ, List.foldl_cons, ih]

theorem foldRows_true (k : Nat) : ∀ (l : List Nat) (s : Nat),
    l.foldl (fun s _ => (List.replicate k true).foldl r1Step s) (s, true) =
      (s + l.length * k, true) := by
  intro l
  induction l with
  | nil => intro s; simp
  | cons a l ih =>
    intro s
    rw [List.foldl_cons, foldTrue_true, ih]
    simp only [Prod.mk.injEq, and_true, List.length_cons]
    rw [Nat.succ_mul]
    omega

theorem phase_from_false (k : Nat) (hk : 1 ≤ k) (l : List Nat) (s : Nat)
    (hl : 1 ≤ l.length) :
    l.foldl (fun s _ => (List.replicate k true).foldl r1Step s) (s, false) =
      (s + l.length * k + 2, true) := by
  cases l with
  | nil => simp at hl
  | cons a l =>
    rw [List.foldl_cons, foldTrue_false k s hk, foldRows_true]
    simp only [Prod.mk.injEq, and_true, List.length_cons]
    rw [Nat.succ_mul]
    omega

/-- C4, counterexample: on the all-light matrix the code's rule 1 yields
`527 + 527 = 1054` (the streak runs across row boundaries and, in the
column scan, across its row-major window order), whereas the claimed
per-row/per-column formula yields `25·23·2 = 1150`. -/
theorem C4_counterexample : evaluateR1 Matrix.new ≠ specR1 Matrix.new := by
  have h1 : evaluateR1 Matrix.new = 1054 := by
    simp only [evaluateR1, Matrix.new, win5_zero, fold_const_true, List.length_range]
    rw [phase_from_false 21 (by omega) (List.range 25) 0 (by simp)]
    rw [phase_from_false 25 (by omega) (List.range 21) _ (by simp)]
    simp
  have h2 : specR1 Matrix.new = 1150 := by
    have hf : ((List.replicate 21 true).foldl r1Step ((0 : Nat), false)) = (23, true) := by
      rw [foldTrue_false 21 0 (by omega)]
    simp only [specR1, Matrix.new, win5_zero, List.map_const', List.length_range, hf]
    simp [List.sum_replicate]
  rw [h1, h2]
  decide

/-- C4 (amended): the code's rule 1 equals the run-length decomposition of
the two window sequences in the code's own scan order: per maximal run of
consecutive matching windows, `3 + (run length − 1)`; the streak carries
over between adjacent rows of the row scan and between adjacent windows of
the column scan's row-major order, and is reset once between the scans. -/
theorem C4_amended (m : Matrix) :
    evaluateR1 m = runScore (rowWindows m) + runScore (colWindows m) := by
  have key : ∀ (L : List (List Bool)) (s : Nat),
      (L.foldl (fun b l => l.foldl r1Step b) (s, false)).1 =
        s + runScore L.join := by
    intro L s
    rw [← foldl_join]
    exact (r1_fold L.join s).1
  have trow := key ((List.range 25).map (fun row => (List.range 21).map (fun col =>
    win5 (m.data row col) (m.data row (col + 1)) (m.data row (col + 2))
      (m.data row (col + 3)) (m.data row (col + 4))))) 0
  have tcol := fun s => key ((List.range 21).map (fun row => (List.range 25).map (fun col =>
    win5 (m.data row col) (m.data (row + 1) col) (m.data (row + 2) col)
      (m.data (row + 3) col) (m.data (row + 4) col)))) s
  simp only [List.foldl_map] at trow tcol
  simp only [evaluateR1]
  rw [tcol, trow]
  rw [rowWindows, colWindows]
  omega

theorem foldl_if_le (p : Nat → Prop) [DecidablePred p] :
    ∀ (l : List Nat) (s : Nat),
      l.foldl (fun s x => if p x then s + 1 else s) s ≤ s + l.length := by
  intro l
  induction l with
  | nil => simp
  | cons x l ih =>
    intro s
    simp only [List.foldl_cons, List.length_cons]
    by_cases h : p x
    · rw [if_pos h]; have := ih (s + 1); omega
    · rw [if_neg h]; have := ih s; omega

theorem countDark_le (m : Matrix) : countDark m ≤ 625 := by
  unfold countDark
  have inner : ∀ (row s : Nat),
      (List.range 25).foldl (fun s col => if m.data row col = 1 then s + 1 else s) s ≤
        s + 25 := by
    intro row s
    have := foldl_if_le (fun col => m.data row col = 1) (List.range 25) s
    simpa using this
  have outer : ∀ (rows : List Nat) (s : Nat),
      rows.foldl (fun s row =>
        (List.range 25).foldl (fun s col => if m.data row col = 1 then s + 1 else s) s) s ≤
        s + 25 * rows.length := by
    intro rows
    induction rows with
    | nil => simp
    | cons r rows ih =>
      intro s
      simp only [List.foldl_cons, List.length_cons]
      have h1 := inner r s
      have h2 := ih ((List.range 25).foldl
        (fun s col => if m.data r col = 1 then s + 1 else s) s)
      omega
  have := outer (List.range 25) 0
  simpa using this

/-- The claimed rule 4 (C5's formula), with `lo = 5·⌊p/5⌋ − 50`. -/
def claimR4 (m : Matrix) : Nat :=
  let p := countDark m * 100 / 625
  let lo : Int := 5 * ((p : Int) / 5) - 50
  let hi : Int := lo + 5
  2 * min lo.natAbs hi.natAbs

set_option maxRecDepth 100000 in
/-- C5, counterexample: the all-light matrix has `p = 0`; the code computes
`upper = 0`, `lower = −5`, penalty `2·min(55, 50) = 100`, whereas the
claimed `lo = −50`, `hi = −45` yields `2·min(50, 45) = 90`. -/
theorem C5_counterexample : evaluateR4 Matrix.new ≠ claimR4 Matrix.new := by
  decide

/-- The `while` loop of rule 4 computes the least multiple of 5 that is
`≥ p`, so the code's pair of adjacent multiples is `(5⌈p/5⌉ − 5, 5⌈p/5⌉)`. -/
theorem r4_closed : ∀ p < 101, r4FromP p =
    2 * min (((5 * ((p + 4) / 5) : Nat) : Int) - 55).natAbs
            (((5 * ((p + 4) / 5) : Nat) : Int) - 50).natAbs := by
  decide

/-- C5 (amended): the R4 penalty equals `2·min(|lo|, |hi|)` with
`lo = 5·⌈p/5⌉ − 55` and `hi = lo + 5` — the code rounds the percentage
**up** to the next multiple of five and takes that multiple and its
predecessor, which differs from the claimed `⌊·⌋` pair exactly when `p` is
itself a multiple of 5. -/
theorem C5_amended (m : Matrix) :
    evaluateR4 m =
      2 * min (((5 * ((countDark m * 100 / 625 + 4) / 5) : Nat) : Int) - 55).natAbs
              (((5 * ((countDark m * 100 / 625 + 4) / 5) : Nat) : Int) - 50).natAbs := by
  have hd : countDark m ≤ 625 := countDark_le m
  have hp : countDark m * 100 / 625 < 101 := by omega
  exact r4_closed _ hp

/-- C6, counterexample: starting from the all-light matrix, placing the
format string for mask 0 leaves cell `(17, 8)` at its prior value `0`,
although bit 8 of the XOR-masked format code is `1` — the placement loop
(`if n < 7`) skips `(17, 8)` and never writes the computed bit there. -/
theorem C6_counterexample :
    (place_format_string Matrix.new 0).data 17 8 = 0 ∧ (formatBits 0).getD 8 0 = 1 := by
  constructor
  · decide
  · decide

set_option maxRecDepth 10000 in
/-- C6 (amended): for every matrix state and every mask index, the
format-string placement writes nothing into the dark-module cell
`(17, 8)`; that cell keeps the value set by `place_dark_module`, and bit 8
of the format code lands at `(7, 8)` and `(8, 18)` instead. -/
theorem C6_amended (M : Matrix) (mask_no : Nat) :
    (place_format_string M mask_no).data 17 8 = M.data 17 8 := by
  simp [place_format_string, foldRange, writeData, upd2,
    show List.range 8 = [0, 1, 2, 3, 4, 5, 6, 7] from rfl]


/-! ### Claim C7 -/


def finderCell (r c : Nat) : Nat :=
  if r = 0 ∨ r = 6 ∨ c = 0 ∨ c = 6 then 1
  else if 2 ≤ r ∧ r ≤ 4 ∧ 2 ≤ c ∧ c ≤ 4 then 1 else 0

def alignCell (r c : Nat) : Nat :=
  if r = 0 ∨ r = 4 ∨ c = 0 ∨ c = 4 ∨ (r = 2 ∧ c = 2) then 1 else 0

def fixedCells : List (Nat × Nat × Nat) :=
  (((List.range 7).map (fun r => (List.range 7).map (fun c =>
    [(r, c, finderCell r c), (18 + r, c, finderCell r c),
     (r, 18 + c, finderCell r c)]))).join.join) ++
  (((List.range 5).map (fun r => (List.range 5).map (fun c =>
    (16 + r, 16 + c, alignCell r c)))).join) ++
  (((List.range 9).map (fun n =>
    [((6 : Nat), 8 + n, if n % 2 = 0 then (1 : Nat) else 0),
     (8 + n, (6 : Nat), if n % 2 = 0 then (1 : Nat) else 0)])).join) ++
  [(17, 8, 1)]

set_option maxRecDepth 1000000 in
theorem placed_fixed : ∀ p ∈ fixedCells,
    placedMatrix.data p.1 p.2.1 = p.2.2 ∧ placedMatrix.mask p.1 p.2.1 = true := by
  decide

/-- State preservation: the reservation bitmap is unchanged and every
reserved cell keeps its module value. -/
def Pres (m m' : Matrix) : Prop :=
  m'.mask = m.mask ∧ ∀ r c, m.mask r c = true → m'.data r c = m.data r c

theorem pres_refl (m : Matrix) : Pres m m := ⟨rfl, fun _ _ _ => rfl⟩

theorem pres_trans {m1 m2 m3 : Matrix} (h12 : Pres m1 m2) (h23 : Pres m2 m3) :
    Pres m1 m3 := by
  obtain ⟨hm12, hd12⟩ := h12
  obtain ⟨hm23, hd23⟩ := h23
  refine ⟨hm23.trans hm12, fun r c h => ?_⟩
  rw [hd23 r c (by rw [hm12]; exact h), hd12 r c h]

theorem writeData_mask (m : Matrix) (a b v : Nat) :
    (writeData m a b v).mask = m.mask := rfl

theorem pres_writeData {m : Matrix} {a b : Nat} (v : Nat) (h : m.mask a b = false) :
    Pres m (writeData m a b v) := by
  refine ⟨rfl, fun r c hrc => ?_⟩
  simp only [writeData, upd2]
  rw [if_neg]
  rintro ⟨rfl, rfl⟩
  rw [h] at hrc
  exact Bool.false_ne_true hrc

theorem pres_flip {m : Matrix} {a b : Nat} (h : m.mask a b = false) :
    Pres m (flip_bit m a b) := by
  unfold flip_bit
  rw [if_neg (by rw [h]; exact Bool.false_ne_true)]
  split_ifs
  · exact pres_writeData _ h
  · exact pres_writeData _ h

theorem pres_foldl (f : Matrix → Nat → Matrix) (hf : ∀ m n, Pres m (f m n)) :
    ∀ (l : List Nat) (m : Matrix), Pres m (l.foldl f m) := by
  intro l
  induction l with
  | nil => intro m; exact pres_refl m
  | cons a l ih =>
    intro m
    rw [List.foldl_cons]
    exact pres_trans (hf m a) (ih (f m a))

/-- `Matrix::transform` never changes a reserved cell and never changes the
reservation bitmap. -/
theorem transform_pres (m : Matrix) (k : Nat) : Pres m (transform m k) := by
  unfold transform foldRange
  apply pres_foldl
  intro m1 row
  apply pres_foldl
  intro m2 col
  by_cases h : m2.mask row col = true
  · rw [if_pos h]; exact pres_refl m2
  · rw [if_neg h]
    have h' : m2.mask row col = false := by
      cases hb : m2.mask row col
      · rfl
      · exact absurd hb h
    by_cases h0 : maskEval k row col = 0
    · rw [if_pos h0]; exact pres_flip h'
    · rw [if_neg h0]; exact pres_refl m2

theorem fillUp_pres : ∀ (fuel : Nat) (m : Matrix) (row col index : Nat) (bits : List Nat),
    Pres m (fillUp fuel m row col index bits).1 := by
  intro fuel
  induction fuel with
  | zero => intro m row col index bits; exact pres_refl m
  | succ fuel ih =>
    intro m row col index bits
    simp only [fillUp]
    by_cases h1 : m.mask row col = false
    · simp only [if_pos h1]
      have hw1 : Pres m (writeData m row col (bits.getD index 0)) :=
        pres_writeData _ h1
      by_cases hL1 : index + 1 = bits.length
      · simp only [if_pos hL1]; exact hw1
      · simp only [if_neg hL1, writeData_mask]
        by_cases h2 : m.mask row (col - 1) = false
        · simp only [if_pos h2]
          have hw2 : Pres m (writeData (writeData m row col (bits.getD index 0))
              row (col - 1) (bits.getD (index + 1) 0)) :=
            pres_trans hw1 (pres_writeData _ (by rw [writeData_mask]; exact h2))
          split_ifs
          · exact hw2
          · exact hw2
          · exact pres_trans hw2 (ih _ _ _ _ _)
        · simp only [if_neg h2]
          split_ifs
          · exact hw1
          · exact pres_trans hw1 (ih _ _ _ _ _)
    · simp only [if_neg h1]
      by_cases hL1 : index = bits.length
      · simp only [if_pos hL1]; exact pres_refl m
      · simp only [if_neg hL1]
        by_cases h2 : m.mask row (col - 1) = false
        · simp only [if_pos h2]
          have hw2 : Pres m (writeData m row (col - 1) (bits.getD index 0)) :=
            pres_writeData _ h2
          split_ifs
          · exact hw2
          · exact hw2
          · exact pres_trans hw2 (ih _ _ _ _ _)
        · simp only [if_neg h2]
          split_ifs
          · exact pres_refl m
          · exact ih _ _ _ _ _

theorem fillDown_pres : ∀ (fuel : Nat) (m : Matrix) (row col index : Nat) (bits : List Nat),
    Pres m (fillDown fuel m row col index bits).1 := by
  intro fuel
  induction fuel with
  | zero => intro m row col index bits; exact pres_refl m
  | succ fuel ih =>
    intro m row col index bits
    simp only [fillDown]
    by_cases h1 : m.mask row col = false
    · simp only [if_pos h1]
      have hw1 : Pres m (writeData m row col (bits.getD index 0)) :=
        pres_writeData _ h1
      by_cases hL1 : index + 1 = bits.length
      · simp only [if_pos hL1]; exact hw1
      · simp only [if_neg hL1, writeData_mask]
        by_cases h2 : m.mask row (col - 1) = false
        · simp only [if_pos h2]
          have hw2 : Pres m (writeData (writeData m row col (bits.getD index 0))
              row (col - 1) (bits.getD (index + 1) 0)) :=
            pres_trans hw1 (pres_writeData _ (by rw [writeData_mask]; exact h2))
          split_ifs
          · exact hw2
          · exact hw2
          · exact pres_trans hw2 (ih _ _ _ _ _)
        · simp only [if_neg h2]
          split_ifs
          · exact hw1
          · exact pres_trans hw1 (ih _ _ _ _ _)
    · simp only [if_neg h1]
      by_cases hL1 : index = bits.length
      · simp only [if_pos hL1]; exact pres_refl m
      · simp only [if_neg hL1]
        by_cases h2 : m.mask row (col - 1) = false
        · simp only [if_pos h2]
          have hw2 : Pres m (writeData m row (col - 1) (bits.getD index 0)) :=
            pres_writeData _ h2
          split_ifs
          · exact hw2
          · exact hw2
          · exact pres_trans hw2 (ih _ _ _ _ _)
        · simp only [if_neg h2]
          split_ifs
          · exact pres_refl m
          · exact ih _ _ _ _ _

theorem fillLoop_pres : ∀ (fuel : Nat) (m : Matrix) (row col index : Nat) (bits : List Nat),
    Pres m (fillLoop fuel m row col index bits) := by
  intro fuel
  induction fuel with
  | zero => intro m row col index bits; exact pres_refl m
  | succ fuel ih =>
    intro m row col index bits
    simp only [fillLoop]
    by_cases h : index < bits.length
    · simp only [if_pos h]
      exact pres_trans (fillUp_pres 25 m row col index bits)
        (pres_trans (fillDown_pres 25 _ _ _ _ bits) (ih _ _ _ _ bits))
    · simp only [if_neg h]; exact pres_refl m

theorem fill_data_pres (m : Matrix) (bits : List Nat) :
    Pres m (fill_data m bits) :=
  fillLoop_pres 13 m 24 24 0 bits

/-- The cells written by the `place_format_string` loop. -/
def pfsTarget (r c : Nat) : Bool :=
  decide ((r = 8 ∧ (c ≤ 5 ∨ c = 7 ∨ c = 8 ∨ (17 ≤ c ∧ c ≤ 24))) ∨
          (c = 8 ∧ (r ≤ 5 ∨ r = 7 ∨ r = 8 ∨ (18 ≤ r ∧ r ≤ 24))))

theorem writeData_data_ne (m : Matrix) (a b v r c : Nat) (h : ¬(r = a ∧ c = b)) :
    (writeData m a b v).data r c = m.data r c := by
  simp only [writeData, upd2]
  rw [if_neg h]

theorem foldl_data_pres (f : Matrix → Nat → Matrix) (r c : Nat) :
    ∀ (l : List Nat) (m : Matrix),
      (∀ m' n, n ∈ l → (f m' n).data r c = m'.data r c) →
      (l.foldl f m).data r c = m.data r c := by
  intro l
  induction l with
  | nil => intro m _; rfl
  | cons a l ih =>
    intro m hf
    rw [List.foldl_cons, ih _ (fun m' n hn => hf m' n (List.mem_cons_of_mem a hn)),
      hf m a (List.mem_cons_self a l)]

theorem pfs_preserve (M : Matrix) (k r c : Nat) (h : pfsTarget r c = false) :
    (place_format_string M k).data r c = M.data r c := by
  simp only [pfsTarget, decide_eq_false_iff_not] at h
  simp only [place_format_string, foldRange]
  generalize formatBits k = bs
  apply foldl_data_pres
  intro m' n hn
  have hn8 : n < 8 := List.mem_range.mp hn
  by_cases h6 : n < 6
  · rw [if_pos h6, if_pos (by omega : n < 7)]
    rw [writeData_data_ne _ 8 (24 - n) _ r c (by omega)]
    rw [writeData_data_ne _ (24 - n) 8 _ r c (by omega)]
    rw [writeData_data_ne _ n 8 _ r c (by omega)]
    rw [writeData_data_ne _ 8 n _ r c (by omega)]
  · rw [if_neg h6]
    by_cases h7 : n < 7
    · rw [if_pos h7]
      rw [writeData_data_ne _ 8 (24 - n) _ r c (by omega)]
      rw [writeData_data_ne _ (24 - n) 8 _ r c (by omega)]
      rw [writeData_data_ne _ (1 + n) 8 _ r c (by omega)]
      rw [writeData_data_ne _ 8 (n + 1) _ r c (by omega)]
    · rw [if_neg h7]
      rw [writeData_data_ne _ 8 (24 - n) _ r c (by omega)]
      rw [writeData_data_ne _ (1 + n) 8 _ r c (by omega)]
      rw [writeData_data_ne _ 8 (n + 1) _ r c (by omega)]

set_option maxRecDepth 100000 in
theorem fixed_notW : ∀ p ∈ fixedCells, pfsTarget p.1 p.2.1 = false := by
  decide

/-- C7: the mask transform never changes a reserved cell, and in the final
matrix all finder, alignment, timing and dark-module cells hold their
specified values. -/
theorem C7_invariants :
    (∀ (st : Matrix) (mask_no r c : Nat), st.mask r c = true →
      (transform st mask_no).data r c = st.data r c) ∧
    (∀ (bits : List Nat), ∀ p ∈ fixedCells,
      (finalMatrix bits).data p.1 p.2.1 = p.2.2) := by
  constructor
  · intro st mask_no r c h
    exact (transform_pres st mask_no).2 r c h
  · intro bits p hp
    obtain ⟨hpd, hpm⟩ := placed_fixed p hp
    obtain ⟨hfm, hfd⟩ := fill_data_pres placedMatrix bits
    have hFm : (fill_data placedMatrix bits).mask p.1 p.2.1 = true := by
      rw [hfm]; exact hpm
    simp only [finalMatrix, mask_and_place_format_string]
    rw [pfs_preserve _ _ _ _ (fixed_notW p hp)]
    have ht := (transform_pres (fill_data placedMatrix bits)
      (chooseMask (fill_data placedMatrix bits))).2 p.1 p.2.1 hFm
    simp only [ht]
    rw [hfd p.1 p.2.1 hpm, hpd]

theorem C7_invariants_witness :
    (finalMatrix (List.replicate 352 0)).data 17 8 = 1 :=
  C7_invariants.2 (List.replicate 352 0) (17, 8, 1) (by decide)

/-! ### CRC-32 (`lib.rs`) -/

/-- The generator polynomial of `calculate_crc` (leading 1 omitted). -/
def gen_poly : Nat := 0b00000100110000010001110110110111

/-- `reflect_byte`: invert the order of the bits in a byte. -/
def reflect_byte (byte : Nat) : Nat :=
  (List.range 8).foldl (fun nb n =>
    if byte &&& 2 ^ (7 - n) = 2 ^ (7 - n) then nb + 2 ^ n else nb) 0

/-- `next_bit`: bit `n` of a byte. -/
def next_bit (byte n : Nat) : Nat :=
  if byte &&& 2 ^ n = 2 ^ n then 1 else 0

/-- `mirror_crc`: invert the order of the bits in a `u32`. -/
def mirror_crc (crc : Nat) : Nat :=
  (List.range 32).foldl (fun nc n =>
    if crc &&& 2 ^ n = 2 ^ n then nc + 2 ^ (31 - n) else nc) 0

/-- One iteration of the division loop of `calculate_crc`: shift, append
the incoming bit, and xor the generator if the discarded bit was 1. -/
def crcStep (crc b : Nat) : Nat :=
  if crc &&& 2147483648 = 2147483648 then (((crc <<< 1) % 4294967296) + b) ^^^ gen_poly
  else ((crc <<< 1) % 4294967296) + b

/-- The inner `for m in 0..8` loop on a data byte (bits fed LSB first). -/
def crcFeedByte (crc byte : Nat) : Nat :=
  (List.range 8).foldl (fun c m => crcStep c (next_bit byte m)) crc

/-- The inner loop of the trailing iterations (no new bits). -/
def crcZeroByte (crc : Nat) : Nat :=
  (List.range 8).foldl (fun c _ => crcStep c 0) crc

/-- The four trailing zero-iterations of `calculate_crc`. -/
def crcZ (crc : Nat) : Nat := crcZeroByte (crcZeroByte (crcZeroByte (crcZeroByte crc)))

/-- The preload of the first four (reflected) bytes in `calculate_crc`. -/
def preVal (d0 d1 d2 d3 : Nat) : Nat :=
  let c1 := reflect_byte d0
  let c2 := ((c1 <<< 8) % 4294967296) ^^^ reflect_byte d1
  let c3 := ((c2 <<< 8) % 4294967296) ^^^ reflect_byte d2
  ((c3 <<< 8) % 4294967296) ^^^ reflect_byte d3

/-- `calculate_crc`: preload the first four bytes reflected, complement
(`!crc` on a `u32` is xor with `0xFFFFFFFF`), divide MSB-first feeding the
remaining bytes LSB-first, append 32 zero bits, mirror and complement. -/
def calculate_crc (data : List Nat) : Nat :=
  let c5 := preVal (data.getD 0 0) (data.getD 1 0) (data.getD 2 0) (data.getD 3 0) ^^^ 4294967295
  mirror_crc (crcZ ((data.drop 4).foldl crcFeedByte c5)) ^^^ 4294967295

/-- One bit step of the standard reflected CRC-32 (for comparison with the
spec: polynomial `0xEDB88320`). -/
def stdStep (c : Nat) : Nat :=
  if c &&& 1 = 1 then (c >>> 1) ^^^ 3988292384 else c >>> 1

/-- One byte of the standard reflected CRC-32: absorb at the low end, then
eight reduction steps. -/
def stdByte (c byte : Nat) : Nat :=
  (List.range 8).foldl (fun c _ => stdStep c) (c ^^^ byte)

/-- The standard PNG/zlib CRC-32, written from the spec's words: init
`0xFFFFFFFF`, reflected polynomial `0xEDB88320`, final xor `0xFFFFFFFF`. -/
def crc32_spec (data : List Nat) : Nat :=
  (data.foldl stdByte 4294967295) ^^^ 4294967295

set_option maxRecDepth 100000 in
theorem crc_D1 : ∀ b < 256, stdByte 0 b = mirror_crc (crcZ (crcFeedByte 0 b)) := by
  decide

set_option maxRecDepth 100000 in
theorem crc_E3 : ∀ b < 256, stdByte 0 b = mirror_crc (crcZ (reflect_byte b)) := by
  decide

set_option maxRecDepth 100000 in
theorem crc_E2 : ∀ b < 256,
    stdByte (stdByte 0 b) 0 = mirror_crc (crcZ ((reflect_byte b) <<< 8)) := by
  decide

set_option maxRecDepth 100000 in
theorem crc_E1 : ∀ b < 256,
    stdByte (stdByte (stdByte 0 b) 0) 0 = mirror_crc (crcZ ((reflect_byte b) <<< 16)) := by
  decide

set_option maxRecDepth 100000 in
theorem crc_E0 : ∀ b < 256,
    stdByte (stdByte (stdByte (stdByte 0 b) 0) 0) 0 =
      mirror_crc (crcZ ((reflect_byte b) <<< 24)) := by
  decide

set_option maxRecDepth 100000 in
theorem crc_EF :
    stdByte (stdByte (stdByte (stdByte 4294967295 0) 0) 0) 0 =
      mirror_crc (crcZ 4294967295) := by
  decide

theorem and_pow_eq_iff (x n : Nat) : (x &&& 2 ^ n = 2 ^ n) ↔ x.testBit n = true := by
  rw [Nat.and_two_pow]
  have hpos : 0 < 2 ^ n := Nat.two_pow_pos n
  cases h : x.testBit n
  · simp only [Bool.toNat_false, Nat.zero_mul]
    constructor
    · intro h'; omega
    · intro h'; cases h'
  · simp

theorem next_bit_le (byte n : Nat) : next_bit byte n ≤ 1 := by
  unfold next_bit
  split_ifs <;> omega

theorem shiftRight_xor (a e n : Nat) : (a ^^^ e) >>> n = (a >>> n) ^^^ (e >>> n) := by
  apply Nat.eq_of_testBit_eq
  intro i
  simp [Nat.testBit_shiftRight, Nat.testBit_xor]

theorem shiftLeft_xor (a e n : Nat) : (a ^^^ e) <<< n = (a <<< n) ^^^ (e <<< n) := by
  apply Nat.eq_of_testBit_eq
  intro i
  rw [Nat.testBit_xor, Nat.testBit_shiftLeft, Nat.testBit_shiftLeft,
    Nat.testBit_shiftLeft, Nat.testBit_xor]
  by_cases h2 : i >= n <;> simp [h2]

theorem shl_mod_xor (a e : Nat) :
    ((a ^^^ e) <<< 1) % 4294967296 =
      (((a <<< 1) % 4294967296)) ^^^ (((e <<< 1) % 4294967296)) := by
  apply Nat.eq_of_testBit_eq
  intro i
  have hN : (4294967296 : Nat) = 2 ^ 32 := by norm_num
  rw [hN, Nat.testBit_xor, Nat.testBit_mod_two_pow, Nat.testBit_mod_two_pow,
    Nat.testBit_mod_two_pow, Nat.testBit_shiftLeft, Nat.testBit_shiftLeft,
    Nat.testBit_shiftLeft, Nat.testBit_xor]
  by_cases h1 : i < 32 <;> by_cases h2 : i >= 1 <;> simp [h1, h2]

theorem shl1_mod_even (c : Nat) : ((c <<< 1) % 4294967296) % 2 = 0 := by
  rw [Nat.shiftLeft_eq]
  have h2 : (2 : Nat) ∣ 4294967296 := by norm_num
  have : (2 : Nat) ∣ (c * 2 ^ 1) % 4294967296 := (Nat.dvd_mod_iff h2).mpr (by simp)
  omega

theorem even_add_bit (x b : Nat) (hx : x % 2 = 0) (hb : b ≤ 1) : x + b = x ^^^ b := by
  have hb01 : b = 0 ∨ b = 1 := by omega
  rcases hb01 with rfl | rfl
  · simp
  · apply Nat.eq_of_testBit_eq
    intro i
    cases i with
    | zero =>
      rw [Nat.testBit_zero, Nat.testBit_xor, Nat.testBit_zero, Nat.testBit_zero]
      have h1 : (x + 1) % 2 = 1 := by omega
      have h2 : (1 : Nat) % 2 = 1 := by omega
      simp [h1, h2, hx]
    | succ i =>
      rw [Nat.testBit_succ, Nat.testBit_xor, Nat.testBit_succ, Nat.testBit_succ]
      have h1 : (x + 1) / 2 = x / 2 := by omega
      have h2 : (1 : Nat) / 2 = 0 := by omega
      rw [h1, h2]
      simp

theorem crcStep_lt (c b : Nat) (hb : b ≤ 1) : crcStep c b < 4294967296 := by
  unfold crcStep
  have hN : (4294967296 : Nat) = 2 ^ 32 := by norm_num
  have h1 : (c <<< 1) % 4294967296 < 4294967296 := Nat.mod_lt _ (by norm_num)
  have h2 : ((c <<< 1) % 4294967296) % 2 = 0 := shl1_mod_even c
  have h3 : ((c <<< 1) % 4294967296) + b < 4294967296 := by omega
  split_ifs
  · rw [hN]
    exact Nat.xor_lt_two_pow (by omega) (by norm_num [gen_poly])
  · exact h3

theorem xor_cancel_left (g x : Nat) : g ^^^ (g ^^^ x) = x := by
  rw [← Nat.xor_assoc, Nat.xor_self, Nat.zero_xor]

theorem xor_left_comm3 (a b c : Nat) : a ^^^ (b ^^^ c) = b ^^^ (a ^^^ c) := by
  rw [← Nat.xor_assoc, Nat.xor_comm a b, Nat.xor_assoc]

theorem crcStep_xor (a e b : Nat) (hb : b ≤ 1) :
    crcStep (a ^^^ e) b = crcStep a b ^^^ crcStep e 0 := by
  unfold crcStep
  have h31 : (2147483648 : Nat) = 2 ^ 31 := by norm_num
  have hA := and_pow_eq_iff a 31
  have hE := and_pow_eq_iff e 31
  have hAE := and_pow_eq_iff (a ^^^ e) 31
  have hxor : (a ^^^ e).testBit 31 = (a.testBit 31).xor (e.testBit 31) := Nat.testBit_xor a e 31
  have ea : ((a <<< 1) % 4294967296) + b = ((a <<< 1) % 4294967296) ^^^ b :=
    even_add_bit _ b (shl1_mod_even a) hb
  have eae : (((a ^^^ e) <<< 1) % 4294967296) + b = (((a ^^^ e) <<< 1) % 4294967296) ^^^ b :=
    even_add_bit _ b (shl1_mod_even (a ^^^ e)) hb
  rw [h31]
  cases ha : a.testBit 31 <;> cases he : e.testBit 31
  · rw [if_neg (fun h => by rw [hAE, hxor, ha, he] at h; exact absurd h (by simp)),
      if_neg (fun h => by rw [hA, ha] at h; exact absurd h (by simp)),
      if_neg (fun h => by rw [hE, he] at h; exact absurd h (by simp))]
    rw [Nat.add_zero, eae, ea, shl_mod_xor]
    simp [Nat.xor_assoc, Nat.xor_comm, xor_left_comm3, Nat.xor_self, Nat.xor_zero, xor_cancel_left]
  · rw [if_pos (by rw [hAE, hxor, ha, he] <;> rfl),
      if_neg (fun h => by rw [hA, ha] at h; exact absurd h (by simp)),
      if_pos (by rw [hE, he] <;> rfl)]
    rw [Nat.add_zero, eae, ea, shl_mod_xor]
    simp [Nat.xor_assoc, Nat.xor_comm, xor_left_comm3, Nat.xor_self, Nat.xor_zero, xor_cancel_left]
  · rw [if_pos (by rw [hAE, hxor, ha, he] <;> rfl),
      if_pos (by rw [hA, ha] <;> rfl),
      if_neg (fun h => by rw [hE, he] at h; exact absurd h (by simp))]
    rw [Nat.add_zero, eae, ea, shl_mod_xor]
    simp [Nat.xor_assoc, Nat.xor_comm, xor_left_comm3, Nat.xor_self, Nat.xor_zero, xor_cancel_left]
  · rw [if_neg (fun h => by rw [hAE, hxor, ha, he] at h; exact absurd h (by simp)),
      if_pos (by rw [hA, ha] <;> rfl),
      if_pos (by rw [hE, he] <;> rfl)]
    rw [Nat.add_zero, eae, ea, shl_mod_xor]
    simp [Nat.xor_assoc, Nat.xor_comm, xor_left_comm3, Nat.xor_self, Nat.xor_zero, xor_cancel_left]

theorem stdStep_xor (a e : Nat) : stdStep (a ^^^ e) = stdStep a ^^^ stdStep e := by
  unfold stdStep
  have hA : (a &&& 1 = 1) ↔ a.testBit 0 = true := by simpa using and_pow_eq_iff a 0
  have hE : (e &&& 1 = 1) ↔ e.testBit 0 = true := by simpa using and_pow_eq_iff e 0
  have hAE : ((a ^^^ e) &&& 1 = 1) ↔ (a ^^^ e).testBit 0 = true := by
    simpa using and_pow_eq_iff (a ^^^ e) 0
  have hxor : (a ^^^ e).testBit 0 = (a.testBit 0).xor (e.testBit 0) := Nat.testBit_xor a e 0
  cases ha : a.testBit 0 <;> cases he : e.testBit 0
  · rw [if_neg (fun h => by rw [hAE, hxor, ha, he] at h; exact absurd h (by simp)),
      if_neg (fun h => by rw [hA, ha] at h; exact absurd h (by simp)),
      if_neg (fun h => by rw [hE, he] at h; exact absurd h (by simp))]
    rw [shiftRight_xor]
  · rw [if_pos (by rw [hAE, hxor, ha, he] <;> rfl),
      if_neg (fun h => by rw [hA, ha] at h; exact absurd h (by simp)),
      if_pos (by rw [hE, he] <;> rfl)]
    rw [shiftRight_xor]
    simp [Nat.xor_assoc, Nat.xor_comm, xor_left_comm3, Nat.xor_self, Nat.xor_zero, xor_cancel_left]
  · rw [if_pos (by rw [hAE, hxor, ha, he] <;> rfl),
      if_pos (by rw [hA, ha] <;> rfl),
      if_neg (fun h => by rw [hE, he] at h; exact absurd h (by simp))]
    rw [shiftRight_xor]
    simp [Nat.xor_assoc, Nat.xor_comm, xor_left_comm3, Nat.xor_self, Nat.xor_zero, xor_cancel_left]
  · rw [if_neg (fun h => by rw [hAE, hxor, ha, he] at h; exact absurd h (by simp)),
      if_pos (by rw [hA, ha] <;> rfl),
      if_pos (by rw [hE, he] <;> rfl)]
    rw [shiftRight_xor]
    simp [Nat.xor_assoc, Nat.xor_comm, xor_left_comm3, Nat.xor_self, Nat.xor_zero, xor_cancel_left]

/-- The low `k` bits of `x` in reversed order (bit 0 ends up on top). -/
def revBits (x : Nat) : Nat → Nat
  | 0 => 0
  | k + 1 => 2 * revBits x k + (if x.testBit k then 1 else 0)

theorem revBits_lt (x : Nat) : ∀ k, revBits x k < 2 ^ k := by
  intro k
  induction k with
  | zero => simp [revBits]
  | succ k ih =>
    rw [revBits, Nat.pow_succ]
    split_ifs <;> omega

theorem revBits_testBit (x : Nat) : ∀ k j, j < k →
    (revBits x k).testBit j = x.testBit (k - 1 - j) := by
  intro k
  induction k with
  | zero => intro j h; exact absurd h (Nat.not_lt_zero j)
  | succ k ih =>
    intro j hj
    rw [revBits]
    cases j with
    | zero =>
      rw [Nat.testBit_zero]
      cases hb : x.testBit k
      · simp [hb, Nat.mul_mod_right]
      · simp [hb, Nat.mul_add_mod]
    | succ j =>
      rw [Nat.testBit_succ]
      have hdiv : (2 * revBits x k + (if x.testBit k then 1 else 0)) / 2 = revBits x k := by
        split_ifs <;> omega
      rw [hdiv, ih j (by omega)]
      congr 1
      omega

theorem mirror_fold (crc : Nat) : ∀ k, k ≤ 32 →
    (List.range k).foldl (fun nc n =>
      if crc &&& 2 ^ n = 2 ^ n then nc + 2 ^ (31 - n) else nc) 0 =
    revBits crc k * 2 ^ (32 - k) := by
  intro k
  induction k with
  | zero => intro _; simp [revBits]
  | succ k ih =>
    intro hk
    rw [List.range_succ, List.foldl_append, ih (by omega)]
    simp only [List.foldl_cons, List.foldl_nil]
    rw [revBits]
    have hc := and_pow_eq_iff crc k
    have hpow : 2 ^ (32 - k) = 2 * 2 ^ (31 - k) := by
      rw [← Nat.pow_succ']
      congr 1
      omega
    have h31 : 32 - (k + 1) = 31 - k := by omega
    cases hb : crc.testBit k
    · rw [if_neg (fun h => by rw [hc, hb] at h; exact absurd h (by simp)), h31, hpow,
        if_neg (show ¬(false = true) by simp)]
      ring
    · rw [if_pos (by rw [hc, hb] <;> rfl), h31, hpow, if_pos rfl]
      ring

theorem mirror_eq (crc : Nat) : mirror_crc crc = revBits crc 32 := by
  unfold mirror_crc
  rw [mirror_fold crc 32 (by omega)]
  norm_num

theorem mirror_lt (crc : Nat) : mirror_crc crc < 4294967296 := by
  rw [mirror_eq]
  have h := revBits_lt crc 32
  norm_num at h
  exact h

theorem mirror_testBit (crc : Nat) {j : Nat} (hj : j < 32) :
    (mirror_crc crc).testBit j = crc.testBit (31 - j) := by
  rw [mirror_eq, revBits_testBit crc 32 j hj]

theorem mirror_testBit_ge (crc : Nat) {j : Nat} (hj : 32 ≤ j) :
    (mirror_crc crc).testBit j = false := by
  apply Nat.testBit_lt_two_pow
  calc mirror_crc crc < 4294967296 := mirror_lt crc
  _ = 2 ^ 32 := by norm_num
  _ ≤ 2 ^ j := Nat.pow_le_pow_right (by omega) hj

theorem mirror_xor (a e : Nat) : mirror_crc (a ^^^ e) = mirror_crc a ^^^ mirror_crc e := by
  apply Nat.eq_of_testBit_eq
  intro i
  rcases Nat.lt_or_ge i 32 with h | h
  · rw [Nat.testBit_xor, mirror_testBit _ h, mirror_testBit _ h, mirror_testBit _ h,
      Nat.testBit_xor]
  · rw [Nat.testBit_xor, mirror_testBit_ge _ h, mirror_testBit_ge _ h, mirror_testBit_ge _ h]
    rfl

theorem mirror_shift (y : Nat) :
    mirror_crc ((y <<< 1) % 4294967296) = mirror_crc y >>> 1 := by
  apply Nat.eq_of_testBit_eq
  intro i
  have hN : (4294967296 : Nat) = 2 ^ 32 := by norm_num
  rcases Nat.lt_or_ge i 32 with h | h
  · rw [mirror_testBit _ h, Nat.testBit_shiftRight]
    rcases Nat.lt_or_ge (1 + i) 32 with h2 | h2
    · rw [mirror_testBit _ h2, hN, Nat.testBit_mod_two_pow, Nat.testBit_shiftLeft]
      have e1 : decide (31 - i < 32) = true := decide_eq_true (by omega)
      have e2 : decide (31 - i ≥ 1) = true := decide_eq_true (by omega)
      rw [e1, e2]
      simp only [Bool.true_and]
      congr 1
      omega
    · have hi : i = 31 := by omega
      subst hi
      rw [mirror_testBit_ge _ (by omega), hN, Nat.testBit_mod_two_pow, Nat.testBit_shiftLeft]
      simp
  · rw [mirror_testBit_ge _ h, Nat.testBit_shiftRight, mirror_testBit_ge _ (by omega)]

set_option maxRecDepth 10000 in
theorem mirror_gen : mirror_crc gen_poly = 3988292384 := by decide

theorem conj_single (y : Nat) :
    stdStep (mirror_crc y) = mirror_crc (crcStep y 0) := by
  unfold stdStep crcStep
  rw [Nat.add_zero]
  have h31 : (2147483648 : Nat) = 2 ^ 31 := by norm_num
  have hstd : (mirror_crc y &&& 1 = 1) ↔ (mirror_crc y).testBit 0 = true := by
    simpa using and_pow_eq_iff (mirror_crc y) 0
  have hsrc : (y &&& 2147483648 = 2147483648) ↔ y.testBit 31 = true := by
    rw [h31]; exact and_pow_eq_iff y 31
  have hmt : (mirror_crc y).testBit 0 = y.testBit 31 := by
    rw [mirror_testBit y (by omega)]
  cases hb : y.testBit 31
  · rw [if_neg (fun h => by rw [hstd, hmt, hb] at h; exact absurd h (by simp)),
      if_neg (fun h => by rw [hsrc, hb] at h; exact absurd h (by simp))]
    exact (mirror_shift y).symm
  · rw [if_pos (by rw [hstd, hmt, hb] <;> rfl), if_pos (hsrc.mpr hb)]
    rw [mirror_xor, mirror_shift y, mirror_gen]

theorem foldl_zero_xor {α : Type} (g : Nat → Nat) (hg : ∀ a e, g (a ^^^ e) = g a ^^^ g e) :
    ∀ (l : List α) (a e : Nat),
      l.foldl (fun c _ => g c) (a ^^^ e) =
        l.foldl (fun c _ => g c) a ^^^ l.foldl (fun c _ => g c) e := by
  intro l
  induction l with
  | nil => intro a e; rfl
  | cons x l ih =>
    intro a e
    simp only [List.foldl_cons]
    rw [hg a e]
    exact ih _ _

theorem crcStep_zero_xor (a e : Nat) : crcStep (a ^^^ e) 0 = crcStep a 0 ^^^ crcStep e 0 :=
  crcStep_xor a e 0 (by omega)

theorem crcZeroByte_xor (a e : Nat) :
    crcZeroByte (a ^^^ e) = crcZeroByte a ^^^ crcZeroByte e := by
  unfold crcZeroByte
  exact foldl_zero_xor (fun c => crcStep c 0) crcStep_zero_xor (List.range 8) a e

theorem crcZ_xor (a e : Nat) : crcZ (a ^^^ e) = crcZ a ^^^ crcZ e := by
  unfold crcZ
  rw [crcZeroByte_xor, crcZeroByte_xor, crcZeroByte_xor, crcZeroByte_xor]

theorem crcFeed_split (byte : Nat) : ∀ (l : List Nat) (a e : Nat),
    l.foldl (fun c m => crcStep c (next_bit byte m)) (a ^^^ e) =
      l.foldl (fun c m => crcStep c (next_bit byte m)) a ^^^
        l.foldl (fun c _ => crcStep c 0) e := by
  intro l
  induction l with
  | nil => intro a e; rfl
  | cons x l ih =>
    intro a e
    simp only [List.foldl_cons]
    rw [crcStep_xor a e (next_bit byte x) (next_bit_le byte x)]
    exact ih _ _

theorem crcFeedByte_split (c byte : Nat) :
    crcFeedByte c byte = crcFeedByte 0 byte ^^^ crcZeroByte c := by
  have h := crcFeed_split byte (List.range 8) 0 c
  rw [Nat.zero_xor] at h
  exact h

theorem stdByte_zero_xor (a e : Nat) :
    stdByte (a ^^^ e) 0 = stdByte a 0 ^^^ stdByte e 0 := by
  unfold stdByte
  rw [Nat.xor_zero, Nat.xor_zero, Nat.xor_zero]
  exact foldl_zero_xor stdStep stdStep_xor (List.range 8) a e

theorem stdByte_absorb (c byte : Nat) : stdByte c byte = stdByte c 0 ^^^ stdByte 0 byte := by
  unfold stdByte
  rw [Nat.xor_zero, Nat.zero_xor]
  exact foldl_zero_xor stdStep stdStep_xor (List.range 8) c byte

theorem crcZeroByte_lt (y : Nat) : crcZeroByte y < 4294967296 := by
  unfold crcZeroByte
  rw [show List.range 8 = List.range 7 ++ [7] from rfl, List.foldl_append]
  simp only [List.foldl_cons, List.foldl_nil]
  exact crcStep_lt _ 0 (by omega)

theorem crcZ_lt (y : Nat) : crcZ y < 4294967296 := crcZeroByte_lt _

theorem crcFeedByte_lt (c byte : Nat) : crcFeedByte c byte < 4294967296 := by
  unfold crcFeedByte
  rw [show List.range 8 = List.range 7 ++ [7] from rfl, List.foldl_append]
  simp only [List.foldl_cons, List.foldl_nil]
  exact crcStep_lt _ _ (next_bit_le byte 7)

theorem conj8 (y : Nat) :
    stdByte (mirror_crc y) 0 = mirror_crc (crcZeroByte y) := by
  unfold stdByte crcZeroByte
  rw [Nat.xor_zero]
  have key : ∀ (l : List Nat) (y : Nat),
      l.foldl (fun c _ => stdStep c) (mirror_crc y) =
        mirror_crc (l.foldl (fun c _ => crcStep c 0) y) := by
    intro l
    induction l with
    | nil => intro y; rfl
    | cons x l ih =>
      intro y
      simp only [List.foldl_cons]
      rw [conj_single y]
      exact ih (crcStep y 0)
  exact key (List.range 8) y

theorem byteStep (c byte : Nat) (hb : byte < 256) :
    stdByte (mirror_crc (crcZ c)) byte = mirror_crc (crcZ (crcFeedByte c byte)) := by
  rw [stdByte_absorb, conj8 (crcZ c), crc_D1 byte hb, ← mirror_xor]
  congr 1
  rw [crcFeedByte_split c byte, crcZ_xor, Nat.xor_comm]
  rfl

theorem crcMain : ∀ (rest : List Nat), (∀ x ∈ rest, x < 256) → ∀ (c : Nat),
    rest.foldl stdByte (mirror_crc (crcZ c)) = mirror_crc (crcZ (rest.foldl crcFeedByte c)) := by
  intro rest
  induction rest with
  | nil => intro _ c; rfl
  | cons b rest ih =>
    intro hb c
    simp only [List.foldl_cons]
    rw [byteStep c b (hb b (List.mem_cons_self b rest))]
    exact ih (fun x hx => hb x (List.mem_cons_of_mem b hx)) (crcFeedByte c b)

theorem reflect_byte_lt (d : Nat) : reflect_byte d < 256 := by
  unfold reflect_byte
  have key : ∀ k, (List.range k).foldl (fun nb n =>
      if d &&& 2 ^ (7 - n) = 2 ^ (7 - n) then nb + 2 ^ n else nb) 0 < 2 ^ k := by
    intro k
    induction k with
    | zero => simp
    | succ k ih =>
      rw [List.range_succ, List.foldl_append]
      simp only [List.foldl_cons, List.foldl_nil]
      rw [Nat.pow_succ]
      split_ifs <;> omega
  exact key 8

theorem preVal_eq (d0 d1 d2 d3 : Nat) :
    preVal d0 d1 d2 d3 = (reflect_byte d0 <<< 24) ^^^ (reflect_byte d1 <<< 16) ^^^
      (reflect_byte d2 <<< 8) ^^^ reflect_byte d3 := by
  have l0 := reflect_byte_lt d0
  have l1 := reflect_byte_lt d1
  have l2 := reflect_byte_lt d2
  have hsl : ∀ x n : Nat, x <<< n = x * 2 ^ n := Nat.shiftLeft_eq
  have shl_shl : ∀ x a b : Nat, (x <<< a) <<< b = x <<< (a + b) := by
    intro x a b
    rw [hsl, hsl, hsl, pow_add, Nat.mul_assoc]
  have hb1 : reflect_byte d0 <<< 8 < 2 ^ 16 := by
    rw [hsl]
    have h : (2 : Nat) ^ 16 = 256 * 2 ^ 8 := by norm_num
    rw [h]
    exact (Nat.mul_lt_mul_right (by norm_num)).mpr l0
  have hc2 : (reflect_byte d0 <<< 8) ^^^ reflect_byte d1 < 2 ^ 16 :=
    Nat.xor_lt_two_pow hb1 (lt_trans l1 (by norm_num))
  have hb2 : ((reflect_byte d0 <<< 8) ^^^ reflect_byte d1) <<< 8 < 2 ^ 24 := by
    rw [hsl]
    have h : (2 : Nat) ^ 24 = 2 ^ 16 * 2 ^ 8 := by norm_num
    rw [h]
    exact (Nat.mul_lt_mul_right (by norm_num)).mpr hc2
  have hc3 : ((((reflect_byte d0 <<< 8) ^^^ reflect_byte d1) <<< 8) ^^^ reflect_byte d2) < 2 ^ 24 :=
    Nat.xor_lt_two_pow hb2 (lt_trans l2 (by norm_num))
  have hb3 : (((((reflect_byte d0 <<< 8) ^^^ reflect_byte d1) <<< 8) ^^^ reflect_byte d2) <<< 8) < 2 ^ 32 := by
    rw [hsl]
    have h : (2 : Nat) ^ 32 = 2 ^ 24 * 2 ^ 8 := by norm_num
    rw [h]
    exact (Nat.mul_lt_mul_right (by norm_num)).mpr hc3
  have m1 : ((reflect_byte d0 <<< 8) % 4294967296) = reflect_byte d0 <<< 8 :=
    Nat.mod_eq_of_lt (lt_trans hb1 (by norm_num))
  show ((((((reflect_byte d0 <<< 8) % 4294967296) ^^^ reflect_byte d1) <<< 8) % 4294967296
      ^^^ reflect_byte d2) <<< 8) % 4294967296 ^^^ reflect_byte d3 = _
  rw [m1]
  have m2 : ((((reflect_byte d0 <<< 8) ^^^ reflect_byte d1) <<< 8) % 4294967296) =
      ((reflect_byte d0 <<< 8) ^^^ reflect_byte d1) <<< 8 :=
    Nat.mod_eq_of_lt (lt_trans hb2 (by norm_num))
  rw [m2]
  have m3 : ((((((reflect_byte d0 <<< 8) ^^^ reflect_byte d1) <<< 8) ^^^ reflect_byte d2) <<< 8)
      % 4294967296) =
      ((((reflect_byte d0 <<< 8) ^^^ reflect_byte d1) <<< 8) ^^^ reflect_byte d2) <<< 8 :=
    Nat.mod_eq_of_lt (lt_of_lt_of_le hb3 (by norm_num))
  rw [m3]
  rw [shiftLeft_xor ((((reflect_byte d0 <<< 8) ^^^ reflect_byte d1) <<< 8)) (reflect_byte d2) 8]
  rw [shiftLeft_xor ((reflect_byte d0 <<< 8)) (reflect_byte d1) 8]
  rw [shiftLeft_xor ((reflect_byte d0 <<< 8) <<< 8) ((reflect_byte d1) <<< 8) 8]
  rw [shl_shl, shl_shl, shl_shl]

theorem preVal_lt (d0 d1 d2 d3 : Nat) : preVal d0 d1 d2 d3 < 4294967296 := by
  show ((((((reflect_byte d0 <<< 8) % 4294967296) ^^^ reflect_byte d1) <<< 8) % 4294967296
      ^^^ reflect_byte d2) <<< 8) % 4294967296 ^^^ reflect_byte d3 < 4294967296
  have h : (4294967296 : Nat) = 2 ^ 32 := by norm_num
  rw [h]
  exact Nat.xor_lt_two_pow (by rw [← h]; exact Nat.mod_lt _ (by norm_num))
    (lt_trans (reflect_byte_lt d3) (by norm_num))

theorem crcBase (d0 d1 d2 d3 : Nat) (h0 : d0 < 256) (h1 : d1 < 256)
    (h2 : d2 < 256) (h3 : d3 < 256) :
    stdByte (stdByte (stdByte (stdByte 4294967295 d0) d1) d2) d3 =
      mirror_crc (crcZ (preVal d0 d1 d2 d3 ^^^ 4294967295)) := by
  rw [preVal_eq, crcZ_xor, crcZ_xor, crcZ_xor, crcZ_xor,
    mirror_xor, mirror_xor, mirror_xor, mirror_xor]
  rw [← crc_E0 d0 h0, ← crc_E1 d1 h1, ← crc_E2 d2 h2, ← crc_E3 d3 h3, ← crc_EF]
  rw [stdByte_absorb 4294967295 d0]
  rw [stdByte_absorb _ d1, stdByte_zero_xor]
  rw [stdByte_absorb _ d2, stdByte_zero_xor, stdByte_zero_xor]
  rw [stdByte_absorb _ d3, stdByte_zero_xor, stdByte_zero_xor, stdByte_zero_xor]
  simp [Nat.xor_assoc, Nat.xor_comm, xor_left_comm3]

/-- C9: for every byte sequence of length at least 4, `calculate_crc`
computes exactly the standard PNG/zlib CRC-32 (reflected polynomial
`0xEDB88320`, initial register `0xFFFFFFFF`, final xor `0xFFFFFFFF`): the
byte-reflect, MSB-first-divide, mirror-and-invert formulation of the
source is equivalent to the standard definition. -/
theorem C9_crc_equiv (data : List Nat) (hlen : 4 ≤ data.length)
    (hB : ∀ x ∈ data, x < 256) : calculate_crc data = crc32_spec data := by
  rcases data with _ | ⟨d0, _ | ⟨d1, _ | ⟨d2, _ | ⟨d3, rest⟩⟩⟩⟩
  · simp at hlen
  · simp at hlen
  · simp at hlen
  · simp at hlen
  · unfold calculate_crc crc32_spec
    simp only [List.getD_cons_zero, List.getD_cons_succ, List.drop_succ_cons,
      List.drop_zero, List.foldl_cons]
    congr 1
    rw [crcBase d0 d1 d2 d3 (hB d0 (by simp)) (hB d1 (by simp)) (hB d2 (by simp))
      (hB d3 (by simp))]
    exact (crcMain rest (fun x hx => hB x (by simp [hx])) _).symm

theorem C9_crc_equiv_witness : calculate_crc [73, 69, 78, 68] = crc32_spec [73, 69, 78, 68] :=
  C9_crc_equiv [73, 69, 78, 68] (by decide) (by decide)

end PasswordDisplay
